import Mathlib

/-!
Verification of the DocImprover round-trip document pipeline
(`src/doc_improver/document_processor.py`).

The development shallowly embeds the pipeline:

* text is modelled as `List Char` (Python `str`);
* a Word document is a list of paragraphs, each a list of runs; a run is
  either plain text or an embedded image whose binary payload is abstracted
  to its byte size plus a flag recording whether the bytes form an
  embeddable image (whether `PIL.Image.open`/`run.add_picture` succeed);
* `uuid.uuid4()` is modelled by a fresh-identifier counter: the n-th issued
  identifier is the string `uuid-<n>`; the model only relies on issued
  identifiers being pairwise distinct, which is what `uuid4` provides;
* Python regular expressions used by the code are translated one by one
  into total functions on `List Char`, following the semantics of greedy /
  lazy matching with backtracking for the concrete patterns involved.
  The translations are faithful for newline-free inputs, which are the
  only inputs the program feeds them (all come from `str.split('\n')`);
  the newline-sensitive inline patterns also handle `'\n'` exactly.
* Python floats in image scaling are modelled by exact rationals.
-/

namespace DocImprover

/-! ## Python string primitives -/

/-- Python's whitespace test for ASCII characters: the character class of
`str.strip()` and of the regex class `\s` (space, tab, newline, carriage
return, vertical tab, form feed).  Whitespace beyond ASCII is not used by
the repository's inputs and is not modelled. -/
def pyIsSpace (c : Char) : Bool :=
  c == ' ' || c == '\t' || c == '\n' || c == '\r' || c == Char.ofNat 11 || c == Char.ofNat 12

/-- The regex class `\d` restricted to ASCII: decimal digits. -/
def pyIsDigit (c : Char) : Bool :=
  48 ≤ c.toNat && c.toNat ≤ 57

/-- Python `str.strip()`: remove leading and trailing whitespace. -/
def pyStrip (l : List Char) : List Char :=
  ((l.dropWhile pyIsSpace).reverse.dropWhile pyIsSpace).reverse

/-- Python `str.split('\n')`. -/
def splitNl : List Char → List (List Char)
  | [] => [[]]
  | c :: r =>
    if c = '\n' then [] :: splitNl r
    else
      match splitNl r with
      | [] => [[c]]
      | l :: ls => (c :: l) :: ls

/-- Python `'\n'.join(...)`. -/
def joinNl : List (List Char) → List Char
  | [] => []
  | [l] => l
  | l :: ls => l ++ '\n' :: joinNl ls

theorem pyStrip_eq_nil_iff (l : List Char) :
    pyStrip l = [] ↔ ∀ c ∈ l, pyIsSpace c := by
  unfold pyStrip
  rw [List.reverse_eq_nil_iff, List.dropWhile_eq_nil_iff]
  constructor
  · intro h c hc
    rcases List.mem_append.mp ((List.takeWhile_append_dropWhile (p := pyIsSpace) (l := l)) ▸ hc) with h1 | h2
    · exact List.mem_takeWhile_imp h1
    · exact h _ (List.mem_reverse.mpr h2)
  · intro h c hc
    exact h _ ((List.dropWhile_sublist (l := l) (p := pyIsSpace)).mem (List.mem_reverse.mp hc))

theorem pyStrip_ne_nil_of_mem {l : List Char} {c : Char}
    (hc : c ∈ l) (hns : pyIsSpace c = false) : pyStrip l ≠ [] := by
  intro h
  have := (pyStrip_eq_nil_iff l).mp h c hc
  simp [hns] at this

theorem mem_joinNl_of_mem {ls : List (List Char)} {l : List Char} {c : Char}
    (hl : l ∈ ls) (hc : c ∈ l) : c ∈ joinNl ls := by
  induction ls with
  | nil => cases hl
  | cons x xs ih =>
    rcases List.mem_cons.mp hl with hl | hl
    · subst hl
      cases xs with
      | nil => simpa [joinNl] using hc
      | cons y ys =>
        simp only [joinNl, List.mem_append]
        exact Or.inl hc
    · cases xs with
      | nil => cases hl
      | cons y ys =>
        simp only [joinNl, List.mem_append, List.mem_cons]
        exact Or.inr (Or.inr (ih hl))

/-! ## Document decomposition (`extract_text_and_images`)

A run either carries plain text or refers to an embedded image whose
binary payload was resolved through `doc.part.related_parts`; the payload
is abstracted to its byte size plus an embeddability flag (`ok` is true
when `PIL.Image.open` and `run.add_picture` would succeed on the bytes).
Runs whose image lookup raises take the `except` branch of the code and
contribute `run.text`, i.e. they behave exactly like text runs, so they
are represented by `Run.textRun`. -/

/-- The registered data of one embedded image (`self._image_map` values):
byte size of the payload plus the embeddability abstraction. -/
structure ImgAsset where
  size : Nat
  ok : Bool
  deriving DecidableEq, Repr

inductive Run
  | textRun (s : List Char)
  | imageRun (a : ImgAsset)
  deriving DecidableEq, Repr

abbrev Para := List Run

abbrev WDoc := List Para

/-- The constant `MAX_IMAGE_SIZE = 10 * 1024 * 1024` (10MB), from `extract_text_and_images`. -/
def MAX_IMAGE_SIZE : Nat := 10 * 1024 * 1024

/-- The constant `MAX_TOTAL_SIZE = 50 * 1024 * 1024` (50MB), from `improve_document`. -/
def MAX_TOTAL_SIZE : Nat := 50 * 1024 * 1024

/-- The literal "too large" sentinel text from `extract_text_and_images`
(`image_id = "This image is too large to process"`). -/
def sentinelText : List Char := "This image is too large to process".data

/-- The model of `str(uuid.uuid4())`: the n-th identifier issued in a
session.  Only pairwise distinctness of issued identifiers is used. -/
def uuidRender (n : Nat) : List Char := "uuid-".data ++ (Nat.repr n).data

/-- One piece of the modified text of a paragraph: plain run text, the
placeholder `[IMAGE:<id>]` of a registered image, or the sentinel
placeholder `[IMAGE: This image is too large to process]`. -/
inductive Seg
  | str (s : List Char)
  | ph (id : Nat)
  | tooBig
  deriving DecidableEq, Repr

/-- Rendering a `Seg` to the characters the code appends to `modified_text`. -/
def segRender : Seg → List Char
  | .str s => s
  | .ph n => "[IMAGE:".data ++ uuidRender n ++ "]".data
  | .tooBig => "[IMAGE: ".data ++ sentinelText ++ "]".data

/-- The full modified text of one paragraph. -/
def renderLine (l : List Seg) : List Char := (l.map segRender).flatten

/-- Result of `extract_text_and_images`: the kept paragraph texts (in order),
the image registry `self._image_map` as an association list in insertion
order, and the state of the uuid counter. -/
structure ExtractSt where
  lines : List (List Seg)
  imageMap : List (Nat × ImgAsset)
  nextId : Nat
  deriving DecidableEq, Repr

/-- Processing one run of a paragraph (the body of the inner `for run` loop):
text is appended verbatim; an image whose payload exceeds
`MAX_IMAGE_SIZE` contributes the sentinel placeholder and is not
registered; otherwise a fresh id is issued, the asset is registered and
the placeholder is appended. -/
def runStep : (List Seg × List (Nat × ImgAsset) × Nat) → Run → (List Seg × List (Nat × ImgAsset) × Nat)
  | (segs, m, n), .textRun s => (segs ++ [.str s], m, n)
  | (segs, m, n), .imageRun a =>
    if MAX_IMAGE_SIZE < a.size then (segs ++ [.tooBig], m, n)
    else (segs ++ [.ph n], m ++ [(n, a)], n + 1)

/-- Processing one paragraph (the body of the outer `for paragraph` loop):
the paragraph's modified text is kept only when it is not pure whitespace
(`if modified_text.strip()`). -/
def paraStep (st : ExtractSt) (p : Para) : ExtractSt :=
  let r := p.foldl runStep ([], st.imageMap, st.nextId)
  { lines := st.lines ++ (if pyStrip (renderLine r.1) = [] then [] else [r.1]),
    imageMap := r.2.1,
    nextId := r.2.2 }

/-- Model of `extract_text_and_images`: the registry is reset (`self._image_map = {}`)
and the paragraphs are walked in document order.  The returned string is
`joinNl` of the rendered lines (`"\n".join(full_text)`). -/
def extractTextAndImages (doc : WDoc) : ExtractSt :=
  doc.foldl paraStep ⟨[], [], 0⟩

/-- The ids of the image placeholders occurring in one paragraph text,
in order. -/
def linePhIds (l : List Seg) : List Nat :=
  l.filterMap fun s => match s with | .ph n => some n | _ => none

/-- The ids of the image placeholders of the whole output text, in document
order. -/
def phIds (lines : List (List Seg)) : List Nat := (lines.map linePhIds).flatten

/-- Number of embedded images of the document. -/
def imageCount (doc : WDoc) : Nat :=
  (doc.map fun p => p.countP fun r => match r with | .imageRun _ => true | _ => false).sum

/-- Number of embedded images of the document that are within the per-image
size threshold (those the code registers). -/
def smallImageCount (doc : WDoc) : Nat :=
  (doc.map fun p => p.countP fun r =>
    match r with | .imageRun a => !(MAX_IMAGE_SIZE < a.size) | _ => false).sum

/-- Number of embedded images of the document that exceed the per-image
size threshold (those the code replaces by the sentinel). -/
def bigImageCount (doc : WDoc) : Nat :=
  (doc.map fun p => p.countP fun r =>
    match r with | .imageRun a => MAX_IMAGE_SIZE < a.size | _ => false).sum

/-- Number of sentinel placeholders in the output text. -/
def tooBigCount (lines : List (List Seg)) : Nat :=
  (lines.map fun l => l.countP fun s => s == Seg.tooBig).sum

/-! ### Invariants of the decomposition fold -/

theorem linePhIds_append (a b : List Seg) :
    linePhIds (a ++ b) = linePhIds a ++ linePhIds b := by
  simp [linePhIds, List.filterMap_append]

theorem phIds_append (a b : List (List Seg)) :
    phIds (a ++ b) = phIds a ++ phIds b := by
  simp [phIds]

/-- A paragraph whose modified text strips to nothing contains no
placeholder: the placeholder text contains `'['`, which is not whitespace. -/
theorem linePhIds_eq_nil_of_blank {segs : List Seg}
    (h : pyStrip (renderLine segs) = []) : linePhIds segs = [] := by
  by_contra hne
  obtain ⟨x, hx⟩ := List.exists_mem_of_ne_nil _ hne
  obtain ⟨s, hs, hsx⟩ := List.mem_filterMap.mp hx
  have hph : s = Seg.ph x := by
    cases s <;> simp_all
  have hbr : '[' ∈ renderLine segs := by
    refine List.mem_flatten.mpr ⟨segRender s, List.mem_map_of_mem _ hs, ?_⟩
    rw [hph]
    simp [segRender]
  exact pyStrip_ne_nil_of_mem hbr (by decide) h

/-- Likewise a paragraph containing the sentinel placeholder is never
dropped as blank. -/
theorem no_tooBig_of_blank {segs : List Seg}
    (h : pyStrip (renderLine segs) = []) : (segs.countP fun s => s == Seg.tooBig) = 0 := by
  rw [List.countP_eq_zero]
  intro s hs
  simp only [beq_iff_eq]
  intro htb
  have hbr : '[' ∈ renderLine segs := by
    refine List.mem_flatten.mpr ⟨segRender s, List.mem_map_of_mem _ hs, ?_⟩
    rw [htb]
    simp [segRender]
  exact pyStrip_ne_nil_of_mem hbr (by decide) h

/-- Registration and placeholder emission are in lockstep within one
paragraph: after processing the runs, the registry's keys are the previous
keys followed by the placeholder ids of the emitted text. -/
theorem runFold_lockstep (runs : List Run) :
    ∀ (segs : List Seg) (m : List (Nat × ImgAsset)) (n : Nat) (P : List Nat),
      m.map Prod.fst = P ++ linePhIds segs →
      ((runs.foldl runStep (segs, m, n)).2.1.map Prod.fst
        = P ++ linePhIds (runs.foldl runStep (segs, m, n)).1) := by
  induction runs with
  | nil => intro segs m n P h; simpa using h
  | cons r rs ih =>
    intro segs m n P h
    cases r with
    | textRun s =>
      simp only [List.foldl_cons, runStep]
      exact ih _ _ _ _ (by simp [linePhIds_append, linePhIds, h])
    | imageRun a =>
      simp only [List.foldl_cons, runStep]
      by_cases hsz : MAX_IMAGE_SIZE < a.size
      · simp only [if_pos hsz]
        exact ih _ _ _ _ (by simp [linePhIds_append, linePhIds, h])
      · simp only [if_neg hsz]
        refine ih _ _ _ _ ?_
        simp [linePhIds_append, linePhIds, h]

/-- The registry's keys are exactly the identifiers `0, …, nextId - 1`,
issued in this order. -/
theorem runFold_range (runs : List Run) :
    ∀ (segs : List Seg) (m : List (Nat × ImgAsset)) (n : Nat),
      m.map Prod.fst = List.range n →
      ((runs.foldl runStep (segs, m, n)).2.1.map Prod.fst
        = List.range (runs.foldl runStep (segs, m, n)).2.2) := by
  induction runs with
  | nil => intro segs m n h; simpa using h
  | cons r rs ih =>
    intro segs m n h
    cases r with
    | textRun s =>
      simp only [List.foldl_cons, runStep]
      exact ih _ _ _ h
    | imageRun a =>
      simp only [List.foldl_cons, runStep]
      by_cases hsz : MAX_IMAGE_SIZE < a.size
      · simp only [if_pos hsz]
        exact ih _ _ _ h
      · simp only [if_neg hsz]
        refine ih _ _ _ ?_
        simp [h, List.range_succ]

/-- The uuid counter advances exactly once per registered (small enough)
image. -/
theorem runFold_next (runs : List Run) :
    ∀ (segs : List Seg) (m : List (Nat × ImgAsset)) (n : Nat),
      (runs.foldl runStep (segs, m, n)).2.2
        = n + runs.countP (fun r =>
            match r with | .imageRun a => !(MAX_IMAGE_SIZE < a.size) | _ => false) := by
  induction runs with
  | nil => intro segs m n; simp
  | cons r rs ih =>
    intro segs m n
    cases r with
    | textRun s =>
      simp only [List.foldl_cons, runStep]
      rw [ih, List.countP_cons]
      simp
    | imageRun a =>
      simp only [List.foldl_cons, runStep]
      by_cases hsz : MAX_IMAGE_SIZE < a.size
      · simp only [if_pos hsz]
        rw [ih, List.countP_cons]
        simp [hsz]
      · simp only [if_neg hsz]
        rw [ih, List.countP_cons]
        simp [hsz]
        omega

/-- Only payloads within the per-image threshold are ever registered. -/
theorem runFold_sizes (runs : List Run) :
    ∀ (segs : List Seg) (m : List (Nat × ImgAsset)) (n : Nat),
      (∀ e ∈ m, e.2.size ≤ MAX_IMAGE_SIZE) →
      ∀ e ∈ (runs.foldl runStep (segs, m, n)).2.1, e.2.size ≤ MAX_IMAGE_SIZE := by
  induction runs with
  | nil => intro segs m n h; simpa using h
  | cons r rs ih =>
    intro segs m n h
    cases r with
    | textRun s =>
      simp only [List.foldl_cons, runStep]
      exact ih _ _ _ h
    | imageRun a =>
      simp only [List.foldl_cons, runStep]
      by_cases hsz : MAX_IMAGE_SIZE < a.size
      · simp only [if_pos hsz]
        exact ih _ _ _ h
      · simp only [if_neg hsz]
        refine ih _ _ _ ?_
        intro e he
        rcases List.mem_append.mp he with he | he
        · exact h e he
        · simp only [List.mem_singleton] at he
          subst he
          simp only []
          omega

/-- One sentinel placeholder is emitted per oversized image. -/
theorem runFold_tooBig (runs : List Run) :
    ∀ (segs : List Seg) (m : List (Nat × ImgAsset)) (n : Nat),
      ((runs.foldl runStep (segs, m, n)).1.countP fun s => s == Seg.tooBig)
        = (segs.countP fun s => s == Seg.tooBig)
          + runs.countP (fun r =>
              match r with | .imageRun a => decide (MAX_IMAGE_SIZE < a.size) | _ => false) := by
  induction runs with
  | nil => intro segs m n; simp
  | cons r rs ih =>
    intro segs m n
    cases r with
    | textRun s =>
      simp only [List.foldl_cons, runStep]
      rw [ih, List.countP_append, List.countP_cons]
      simp
    | imageRun a =>
      simp only [List.foldl_cons, runStep]
      by_cases hsz : MAX_IMAGE_SIZE < a.size
      · simp only [if_pos hsz]
        rw [ih, List.countP_append, List.countP_cons]
        simp [hsz]
        omega
      · simp only [if_neg hsz]
        rw [ih, List.countP_append, List.countP_cons]
        simp [hsz]

/-- Document-level invariant of the decomposition: registry keys are the
placeholder ids of the output text, in document order, and are exactly
`0, …, nextId - 1`. -/
theorem extract_fold_inv (doc : WDoc) :
    ∀ st : ExtractSt,
      st.imageMap.map Prod.fst = phIds st.lines →
      st.imageMap.map Prod.fst = List.range st.nextId →
      ((doc.foldl paraStep st).imageMap.map Prod.fst = phIds (doc.foldl paraStep st).lines ∧
       (doc.foldl paraStep st).imageMap.map Prod.fst = List.range (doc.foldl paraStep st).nextId) := by
  induction doc with
  | nil => intro st h1 h2; exact ⟨h1, h2⟩
  | cons p ps ih =>
    intro st h1 h2
    simp only [List.foldl_cons]
    refine ih _ ?_ ?_
    · have hl := runFold_lockstep p [] st.imageMap st.nextId (phIds st.lines) (by simpa [linePhIds] using h1)
      show (paraStep st p).imageMap.map Prod.fst = phIds (paraStep st p).lines
      simp only [paraStep]
      by_cases hb : pyStrip (renderLine (p.foldl runStep ([], st.imageMap, st.nextId)).1) = []
      · simp only [if_pos hb]
        rw [hl, linePhIds_eq_nil_of_blank hb]
        simp
      · simp only [if_neg hb]
        rw [hl, phIds_append]
        simp [phIds]
    · have hr := runFold_range p [] st.imageMap st.nextId h2
      show (paraStep st p).imageMap.map Prod.fst = List.range (paraStep st p).nextId
      simpa [paraStep] using hr

/-- The uuid counter of a full decomposition counts the registered images. -/
theorem extract_fold_next (doc : WDoc) :
    ∀ st : ExtractSt, (doc.foldl paraStep st).nextId = st.nextId + smallImageCount doc := by
  induction doc with
  | nil => intro st; simp [smallImageCount]
  | cons p ps ih =>
    intro st
    simp only [List.foldl_cons]
    rw [ih]
    have hn := runFold_next p [] st.imageMap st.nextId
    simp only [paraStep]
    simp only [smallImageCount, List.map_cons, List.sum_cons] at *
    rw [hn]
    omega

/-- One sentinel placeholder in the output per oversized image. -/
theorem extract_fold_tooBig (doc : WDoc) :
    ∀ st : ExtractSt,
      tooBigCount (doc.foldl paraStep st).lines = tooBigCount st.lines + bigImageCount doc := by
  induction doc with
  | nil => intro st; simp [bigImageCount]
  | cons p ps ih =>
    intro st
    simp only [List.foldl_cons]
    rw [ih]
    have hn := runFold_tooBig p [] st.imageMap st.nextId
    simp only [bigImageCount, List.map_cons, List.sum_cons]
    simp only [List.countP_nil, Nat.zero_add] at hn
    have : tooBigCount (paraStep st p).lines
        = tooBigCount st.lines + p.countP (fun r =>
            match r with | .imageRun a => decide (MAX_IMAGE_SIZE < a.size) | _ => false) := by
      simp only [paraStep]
      by_cases hb : pyStrip (renderLine (p.foldl runStep ([], st.imageMap, st.nextId)).1) = []
      · simp only [if_pos hb]
        have h0 := no_tooBig_of_blank hb
        rw [h0] at hn
        simp only [tooBigCount, List.append_nil]
        omega
      · simp only [if_neg hb]
        simp only [tooBigCount, List.map_append, List.sum_append, List.map_cons,
          List.map_nil, List.sum_cons, List.sum_nil]
        omega
    rw [this]
    omega

/-- Every registered asset is within the per-image threshold. -/
theorem extract_fold_sizes (doc : WDoc) :
    ∀ st : ExtractSt,
      (∀ e ∈ st.imageMap, e.2.size ≤ MAX_IMAGE_SIZE) →
      ∀ e ∈ (doc.foldl paraStep st).imageMap, e.2.size ≤ MAX_IMAGE_SIZE := by
  induction doc with
  | nil => intro st h; simpa using h
  | cons p ps ih =>
    intro st h
    simp only [List.foldl_cons]
    refine ih _ ?_
    show ∀ e ∈ (paraStep st p).imageMap, e.2.size ≤ MAX_IMAGE_SIZE
    simp only [paraStep]
    exact runFold_sizes p [] st.imageMap st.nextId h

/-- The property "every embedded image of the document has a payload under
the per-image threshold", in decidable (executable) form. -/
def AllImagesSmall (doc : WDoc) : Prop :=
  (doc.all fun p => p.all fun r =>
    match r with | Run.imageRun a => decide (a.size < MAX_IMAGE_SIZE) | _ => true) = true

theorem smallImageCount_eq_imageCount (doc : WDoc) (h : AllImagesSmall doc) :
    smallImageCount doc = imageCount doc := by
  unfold smallImageCount imageCount
  congr 1
  refine List.map_congr_left ?_
  intro p hp
  refine List.countP_congr ?_
  intro r hr
  cases r with
  | textRun s => simp
  | imageRun a =>
    have hra := List.all_eq_true.mp (List.all_eq_true.mp h p hp) _ hr
    simp only [decide_eq_true_eq] at hra
    have hle : ¬ MAX_IMAGE_SIZE < a.size := by omega
    simp [hle]

/-- Claim C1: For every document whose embeddable images are each under the
per-image size threshold, `extract_text_and_images` registers exactly one
id per image, the registered ids are pairwise distinct, and the output
text carries exactly the registered ids as placeholders, one occurrence
each, in document order (the placeholder id sequence read off the output
text equals the registry key sequence). -/
theorem c1_extraction_placeholders (doc : WDoc) (h : AllImagesSmall doc) :
    (extractTextAndImages doc).imageMap.length = imageCount doc ∧
    ((extractTextAndImages doc).imageMap.map Prod.fst).Nodup ∧
    phIds (extractTextAndImages doc).lines = (extractTextAndImages doc).imageMap.map Prod.fst := by
  obtain ⟨h1, h2⟩ := extract_fold_inv doc ⟨[], [], 0⟩ (by simp [phIds]) (by simp)
  refine ⟨?_, ?_, ?_⟩
  · have hlen : (extractTextAndImages doc).imageMap.length = (extractTextAndImages doc).nextId := by
      have := congrArg List.length h2
      simpa [extractTextAndImages] using this
    have hnext := extract_fold_next doc ⟨[], [], 0⟩
    rw [hlen]
    show (List.foldl paraStep ⟨[], [], 0⟩ doc).nextId = imageCount doc
    rw [hnext]
    simp [smallImageCount_eq_imageCount doc h]
  · show ((List.foldl paraStep ⟨[], [], 0⟩ doc).imageMap.map Prod.fst).Nodup
    rw [h2]
    exact List.nodup_range _
  · exact h1.symm

/-- Witness for C1 on a concrete two-image document. -/
theorem c1_extraction_placeholders_witness :
    imageCount [[Run.textRun "Hello".data, Run.imageRun ⟨100, true⟩], [Run.imageRun ⟨5, true⟩]] = 2 ∧
    ((extractTextAndImages [[Run.textRun "Hello".data, Run.imageRun ⟨100, true⟩],
        [Run.imageRun ⟨5, true⟩]]).imageMap.length
      = imageCount [[Run.textRun "Hello".data, Run.imageRun ⟨100, true⟩], [Run.imageRun ⟨5, true⟩]] ∧
     ((extractTextAndImages [[Run.textRun "Hello".data, Run.imageRun ⟨100, true⟩],
        [Run.imageRun ⟨5, true⟩]]).imageMap.map Prod.fst).Nodup ∧
     phIds (extractTextAndImages [[Run.textRun "Hello".data, Run.imageRun ⟨100, true⟩],
        [Run.imageRun ⟨5, true⟩]]).lines
      = (extractTextAndImages [[Run.textRun "Hello".data, Run.imageRun ⟨100, true⟩],
        [Run.imageRun ⟨5, true⟩]]).imageMap.map Prod.fst) :=
  ⟨by decide, c1_extraction_placeholders _ (by rfl)⟩

/-! ## Markdown line classification (`_parse_markdown_line`)

Each of the four `re.match` patterns of `_parse_markdown_line` ends in
`\s+(.+)$`.  For a newline-free line, after the fixed lead-in the pattern
matches exactly when the remainder starts with a whitespace character and
has at least two characters; the greedy `\s+` with backtracking yields as
content the remainder with its maximal leading whitespace run removed, or
— when the remainder is pure whitespace — just its final character. -/

/-- Semantics of `\s+(.+)$` applied to `rest` (newline-free): the captured
content, or `none` when the pattern does not match. -/
def spcContent (rest : List Char) : Option (List Char) :=
  if rest.dropWhile pyIsSpace = [] then
    if 2 ≤ rest.length then rest.reverse.head?.map fun c => [c] else none
  else
    if rest.takeWhile pyIsSpace = [] then none
    else some (rest.dropWhile pyIsSpace)

/-- The classification result of one raw line: `(content, style, level)` as
returned by `_parse_markdown_line` (the style is the docx style name
string). -/
structure LineClass where
  content : List Char
  style : String
  level : Nat
  deriving DecidableEq, Repr

/-- Model of `re.match(r'^(#{1,6})\s+(.+)$', line)`: content and heading level. -/
def headerMatch (l : List Char) : Option (List Char × Nat) :=
  let hs := l.takeWhile fun c => c == '#'
  if 1 ≤ hs.length ∧ hs.length ≤ 6 then
    (spcContent (l.drop hs.length)).map fun t => (t, hs.length)
  else none

/-- Model of `re.match(r'^(\s*)[*+-]\s+(.+)$', line)`: content and indent width. -/
def bulletMatch (l : List Char) : Option (List Char × Nat) :=
  let w := l.takeWhile pyIsSpace
  match l.dropWhile pyIsSpace with
  | c :: rest =>
    if c = '*' ∨ c = '+' ∨ c = '-' then
      (spcContent rest).map fun t => (t, w.length)
    else none
  | [] => none

/-- Model of `re.match(r'^(\s*)\d+\.\s+(.+)$', line)`: content and indent width. -/
def orderedMatch (l : List Char) : Option (List Char × Nat) :=
  let w := l.takeWhile pyIsSpace
  let r := l.dropWhile pyIsSpace
  let d := r.takeWhile pyIsDigit
  if d = [] then none
  else
    match r.drop d.length with
    | c :: rest => if c = '.' then (spcContent rest).map fun t => (t, w.length) else none
    | [] => none

/-- Model of `re.match(r'^\s*>\s+(.+)$', line)`: the quoted content. -/
def quoteMatch (l : List Char) : Option (List Char) :=
  match l.dropWhile pyIsSpace with
  | c :: rest => if c = '>' then spcContent rest else none
  | [] => none

/-- Model of `_parse_markdown_line`: ordered pattern checks — header, unordered
list, ordered list, blockquote, and the `Normal` fallback.  List nesting
level is the leading-whitespace length integer-divided by 2. -/
def parseMarkdownLine (l : List Char) : LineClass :=
  match headerMatch l with
  | some (t, k) => ⟨t, "Heading " ++ Nat.repr k, 0⟩
  | none =>
  match bulletMatch l with
  | some (t, w) => ⟨t, "List Bullet", w / 2⟩
  | none =>
  match orderedMatch l with
  | some (t, w) => ⟨t, "List Number", w / 2⟩
  | none =>
  match quoteMatch l with
  | some t => ⟨t, "Quote", 0⟩
  | none => ⟨l, "Normal", 0⟩


/-! ### Generic takeWhile/dropWhile decomposition lemmas -/

theorem takeWhile_append_of_head {α} {p : α → Bool} (xs : List α) {ys : List α}
    (hx : ∀ x ∈ xs, p x = true) (hy : ∀ c, ys.head? = some c → p c = false) :
    (xs ++ ys).takeWhile p = xs := by
  induction xs with
  | nil =>
    cases ys with
    | nil => rfl
    | cons c cs => simp [List.takeWhile_cons, hy c rfl]
  | cons x xs ih =>
    have hpx : p x = true := hx x (by simp)
    simp only [List.cons_append, List.takeWhile_cons, hpx, if_true]
    rw [ih fun a ha => hx a (by simp [ha])]

theorem dropWhile_append_of_head {α} {p : α → Bool} (xs : List α) {ys : List α}
    (hx : ∀ x ∈ xs, p x = true) (hy : ∀ c, ys.head? = some c → p c = false) :
    (xs ++ ys).dropWhile p = ys := by
  induction xs with
  | nil =>
    cases ys with
    | nil => rfl
    | cons c cs => simp [List.dropWhile_cons, hy c rfl]
  | cons x xs ih =>
    have hpx : p x = true := hx x (by simp)
    simp only [List.cons_append, List.dropWhile_cons, hpx, if_true]
    exact ih fun a ha => hx a (by simp [ha])

theorem takeWhile_eq_nil_of_head {α} {p : α → Bool} {l : List α}
    (h : ∀ c, l.head? = some c → p c = false) : l.takeWhile p = [] := by
  cases l with
  | nil => rfl
  | cons c cs => simp [List.takeWhile_cons, h c rfl]

/-! ### Spec-side predicates for the line classifier (claim C5)

`SpcTail rest` states that the regex tail `\s+(.+)$` can match `rest`:
the remainder after the pattern's lead-in starts with a whitespace
character and has at least one further character. -/

def SpcTail (rest : List Char) : Prop :=
  ∃ c cs, rest = c :: cs ∧ pyIsSpace c = true ∧ cs ≠ []

/-- Spec rule 1: 1–6 leading `#` followed by whitespace and content. -/
def Rule1Applies (l : List Char) : Prop :=
  ∃ k rest, l = List.replicate k '#' ++ rest ∧ 1 ≤ k ∧ k ≤ 6 ∧ SpcTail rest

/-- Spec rule 2: leading whitespace, one of `*`, `+`, `-`, whitespace and
content. -/
def Rule2Applies (l : List Char) : Prop :=
  ∃ w b rest, (∀ c ∈ w, pyIsSpace c = true) ∧ (b = '*' ∨ b = '+' ∨ b = '-') ∧
    l = w ++ b :: rest ∧ SpcTail rest

/-- Spec rule 3: leading whitespace, digits, `.`, whitespace and content. -/
def Rule3Applies (l : List Char) : Prop :=
  ∃ w d rest, (∀ c ∈ w, pyIsSpace c = true) ∧ d ≠ [] ∧ (∀ c ∈ d, pyIsDigit c = true) ∧
    l = w ++ (d ++ '.' :: rest) ∧ SpcTail rest

/-- Spec rule 4: leading whitespace, `>`, whitespace and content. -/
def Rule4Applies (l : List Char) : Prop :=
  ∃ w rest, (∀ c ∈ w, pyIsSpace c = true) ∧ l = w ++ '>' :: rest ∧ SpcTail rest

theorem spcContent_eval {ws t : List Char} (hws : ws ≠ [])
    (hall : ∀ c ∈ ws, pyIsSpace c = true) (ht : t ≠ [])
    (hth : ∀ c, t.head? = some c → pyIsSpace c = false) :
    spcContent (ws ++ t) = some t := by
  have hdw : (ws ++ t).dropWhile pyIsSpace = t := dropWhile_append_of_head ws hall hth
  have htw : (ws ++ t).takeWhile pyIsSpace = ws := takeWhile_append_of_head ws hall hth
  unfold spcContent
  rw [hdw, htw]
  simp [hws, ht]

theorem spcContent_some_shape {rest y : List Char} (h : spcContent rest = some y) :
    SpcTail rest := by
  unfold spcContent at h
  by_cases hdw : rest.dropWhile pyIsSpace = []
  · rw [if_pos hdw] at h
    by_cases hlen : 2 ≤ rest.length
    · have hall : ∀ c ∈ rest, pyIsSpace c = true := List.dropWhile_eq_nil_iff.mp hdw
      rcases rest with _ | ⟨c0, rs⟩
      · simp at hlen
      · exact ⟨c0, rs, rfl, hall c0 (by simp), by
          intro hrs
          subst hrs
          simp at hlen⟩
    · rw [if_neg hlen] at h; cases h
  · rw [if_neg hdw] at h
    by_cases htw : rest.takeWhile pyIsSpace = []
    · rw [if_pos htw] at h; cases h
    · have hsplit : rest.takeWhile pyIsSpace ++ rest.dropWhile pyIsSpace = rest :=
        List.takeWhile_append_dropWhile pyIsSpace rest
      rcases htweq : rest.takeWhile pyIsSpace with _ | ⟨c0, tw⟩
      · exact absurd htweq htw
      · rcases hdweq : rest.dropWhile pyIsSpace with _ | ⟨t, ts⟩
        · exact absurd hdweq hdw
        · refine ⟨c0, tw ++ t :: ts, ?_, ?_, by simp⟩
          · rw [← hsplit, htweq, hdweq]; rfl
          · exact List.mem_takeWhile_imp (htweq ▸ List.mem_cons_self c0 tw)

theorem char_eq_of_toNat_eq {c d : Char} (h : c.toNat = d.toNat) : c = d := by
  refine Char.eq_of_val_eq ?_
  unfold Char.toNat at h
  exact UInt32.toNat.inj h

theorem char_beq_false_of_toNat_ne {c d : Char} (h : c.toNat ≠ d.toNat) : (c == d) = false := by
  by_cases hcd : c = d
  · subst hcd; exact absurd rfl h
  · simp [hcd]

theorem space_of_digit_false {c : Char} (h : pyIsDigit c = true) : pyIsSpace c = false := by
  unfold pyIsDigit at h
  have h48 := (Bool.and_eq_true _ _).mp h
  simp only [decide_eq_true_eq] at h48
  have e1 : (' ' : Char).toNat = 32 := rfl
  have e2 : ('\t' : Char).toNat = 9 := rfl
  have e3 : ('\n' : Char).toNat = 10 := rfl
  have e4 : ('\r' : Char).toNat = 13 := rfl
  have e5 : (Char.ofNat 11).toNat = 11 := rfl
  have e6 : (Char.ofNat 12).toNat = 12 := rfl
  unfold pyIsSpace
  rw [char_beq_false_of_toNat_ne (d := ' ') (by omega),
    char_beq_false_of_toNat_ne (d := '\t') (by omega),
    char_beq_false_of_toNat_ne (d := '\n') (by omega),
    char_beq_false_of_toNat_ne (d := '\r') (by omega),
    char_beq_false_of_toNat_ne (d := Char.ofNat 11) (by omega),
    char_beq_false_of_toNat_ne (d := Char.ofNat 12) (by omega)]
  rfl

theorem hash_of_digit_false {c : Char} (h : pyIsDigit c = true) : (c == '#') = false := by
  unfold pyIsDigit at h
  have h48 := (Bool.and_eq_true _ _).mp h
  simp only [decide_eq_true_eq] at h48
  have e0 : ('#' : Char).toNat = 35 := rfl
  exact char_beq_false_of_toNat_ne (by omega)

theorem bullet_of_digit_false {c : Char} (h : pyIsDigit c = true) :
    ¬ (c = '*' ∨ c = '+' ∨ c = '-') := by
  unfold pyIsDigit at h
  have h48 := (Bool.and_eq_true _ _).mp h
  simp only [decide_eq_true_eq] at h48
  rintro (rfl | rfl | rfl) <;> exact absurd h48 (by decide)

theorem ne_hash_of_space {c : Char} (h : pyIsSpace c = true) : (c == '#') = false := by
  by_cases hc : c = '#'
  · subst hc; exact absurd h (by decide)
  · simp [hc]

theorem not_space_of_bullet {b : Char} (h : b = '*' ∨ b = '+' ∨ b = '-') :
    pyIsSpace b = false := by
  rcases h with h | h | h <;> subst h <;> decide

theorem head_append_of_ne_nil {α} {ws : List α} (t : List α) (h : ws ≠ []) :
    (ws ++ t).head? = ws.head? := by
  cases ws with
  | nil => exact absurd rfl h
  | cons c cs => rfl

/-- The matcher `headerMatch` fails on any line made of a whitespace prefix followed by
text whose first character is not `#`. -/
theorem headerMatch_none_of {w rest : List Char} (hw : ∀ c ∈ w, pyIsSpace c = true)
    (hr : ∀ c, rest.head? = some c → (c == '#') = false) :
    headerMatch (w ++ rest) = none := by
  unfold headerMatch
  have hnil : (w ++ rest).takeWhile (fun c => c == '#') = [] := by
    refine takeWhile_eq_nil_of_head ?_
    intro c hc
    cases w with
    | nil => exact hr c hc
    | cons c0 cs =>
      simp only [List.cons_append, List.head?_cons, Option.some.injEq] at hc
      subst hc
      exact ne_hash_of_space (hw _ (List.mem_cons_self _ _))
  rw [hnil]
  simp

theorem parseMarkdownLine_header {k : Nat} {ws t : List Char}
    (hk1 : 1 ≤ k) (hk6 : k ≤ 6) (hws : ws ≠ []) (hall : ∀ c ∈ ws, pyIsSpace c = true)
    (ht : t ≠ []) (hth : ∀ c, t.head? = some c → pyIsSpace c = false) :
    parseMarkdownLine (List.replicate k '#' ++ (ws ++ t)) = ⟨t, "Heading " ++ Nat.repr k, 0⟩ := by
  have hhead : ∀ c, (ws ++ t).head? = some c → (c == '#') = false := by
    intro c hc
    have hc' : c ∈ ws := by
      cases ws with
      | nil => exact absurd rfl hws
      | cons c0 cs =>
        simp only [List.cons_append, List.head?_cons, Option.some.injEq] at hc
        subst hc
        exact List.mem_cons_self _ _
    exact ne_hash_of_space (hall c hc')
  have htake : (List.replicate k '#' ++ (ws ++ t)).takeWhile (fun c => c == '#')
      = List.replicate k '#' :=
    takeWhile_append_of_head _ (fun x hx => by
      rw [List.eq_of_mem_replicate hx]; simp) hhead
  have hdrop : (List.replicate k '#' ++ (ws ++ t)).drop k = ws ++ t := by
    have h := List.drop_left (List.replicate k '#') (ws ++ t)
    rw [List.length_replicate] at h
    exact h
  have hmatch : headerMatch (List.replicate k '#' ++ (ws ++ t)) = some (t, k) := by
    unfold headerMatch
    rw [htake]
    simp only [List.length_replicate]
    rw [if_pos ⟨hk1, hk6⟩, hdrop, spcContent_eval hws hall ht hth]
    rfl
  unfold parseMarkdownLine
  rw [hmatch]

theorem parseMarkdownLine_bullet {w : List Char} {b : Char} {ws t : List Char}
    (hw : ∀ c ∈ w, pyIsSpace c = true) (hb : b = '*' ∨ b = '+' ∨ b = '-')
    (hws : ws ≠ []) (hall : ∀ c ∈ ws, pyIsSpace c = true)
    (ht : t ≠ []) (hth : ∀ c, t.head? = some c → pyIsSpace c = false) :
    parseMarkdownLine (w ++ b :: (ws ++ t)) = ⟨t, "List Bullet", w.length / 2⟩ := by
  have hbs : pyIsSpace b = false := not_space_of_bullet hb
  have hbh : (b == '#') = false := by
    rcases hb with h | h | h <;> subst h <;> decide
  have hhead : headerMatch (w ++ b :: (ws ++ t)) = none := by
    refine headerMatch_none_of hw ?_
    intro c hc
    simp only [List.head?_cons, Option.some.injEq] at hc
    subst hc
    exact hbh
  have htakew : (w ++ b :: (ws ++ t)).takeWhile pyIsSpace = w := by
    refine takeWhile_append_of_head w hw ?_
    intro c hc
    cases hc
    exact hbs
  have hdropw : (w ++ b :: (ws ++ t)).dropWhile pyIsSpace = b :: (ws ++ t) := by
    refine dropWhile_append_of_head w hw ?_
    intro c hc
    cases hc
    exact hbs
  have hbm : bulletMatch (w ++ b :: (ws ++ t)) = some (t, w.length) := by
    unfold bulletMatch
    rw [htakew, hdropw]
    simp only [if_pos hb]
    rw [spcContent_eval hws hall ht hth]
    rfl
  unfold parseMarkdownLine
  rw [hhead, hbm]

theorem parseMarkdownLine_ordered {w d : List Char} {ws t : List Char}
    (hw : ∀ c ∈ w, pyIsSpace c = true) (hd : d ≠ []) (hdd : ∀ c ∈ d, pyIsDigit c = true)
    (hws : ws ≠ []) (hall : ∀ c ∈ ws, pyIsSpace c = true)
    (ht : t ≠ []) (hth : ∀ c, t.head? = some c → pyIsSpace c = false) :
    parseMarkdownLine (w ++ (d ++ '.' :: (ws ++ t))) = ⟨t, "List Number", w.length / 2⟩ := by
  obtain ⟨d0, ds, rfl⟩ : ∃ d0 ds, d = d0 :: ds := by
    cases d with
    | nil => exact absurd rfl hd
    | cons d0 ds => exact ⟨d0, ds, rfl⟩
  have hd0 : pyIsDigit d0 = true := hdd d0 (by simp)
  have hhead : headerMatch (w ++ ((d0 :: ds) ++ '.' :: (ws ++ t))) = none := by
    refine headerMatch_none_of hw ?_
    intro c hc
    simp only [List.cons_append, List.head?_cons, Option.some.injEq] at hc
    subst hc
    exact hash_of_digit_false hd0
  have htakew : (w ++ ((d0 :: ds) ++ '.' :: (ws ++ t))).takeWhile pyIsSpace = w := by
    refine takeWhile_append_of_head w hw ?_
    intro c hc
    cases hc
    exact space_of_digit_false hd0
  have hdropw : (w ++ ((d0 :: ds) ++ '.' :: (ws ++ t))).dropWhile pyIsSpace
      = (d0 :: ds) ++ '.' :: (ws ++ t) := by
    refine dropWhile_append_of_head w hw ?_
    intro c hc
    cases hc
    exact space_of_digit_false hd0
  have hbm : bulletMatch (w ++ ((d0 :: ds) ++ '.' :: (ws ++ t))) = none := by
    unfold bulletMatch
    rw [hdropw]
    simp only [List.cons_append]
    rw [if_neg (bullet_of_digit_false hd0)]
  have htaked : ((d0 :: ds) ++ '.' :: (ws ++ t)).takeWhile pyIsDigit = d0 :: ds := by
    refine takeWhile_append_of_head _ hdd ?_
    intro c hc
    cases hc
    decide
  have hom : orderedMatch (w ++ ((d0 :: ds) ++ '.' :: (ws ++ t))) = some (t, w.length) := by
    unfold orderedMatch
    simp only [htakew, hdropw, htaked]
    rw [if_neg (by simp : ¬ (d0 :: ds) = [])]
    have hdropd : List.drop (d0 :: ds).length ((d0 :: ds) ++ '.' :: (ws ++ t))
        = '.' :: (ws ++ t) := List.drop_left _ _
    rw [hdropd]
    simp [spcContent_eval hws hall ht hth]
  unfold parseMarkdownLine
  rw [hhead, hbm, hom]

theorem parseMarkdownLine_quote {w : List Char} {ws t : List Char}
    (hw : ∀ c ∈ w, pyIsSpace c = true)
    (hws : ws ≠ []) (hall : ∀ c ∈ ws, pyIsSpace c = true)
    (ht : t ≠ []) (hth : ∀ c, t.head? = some c → pyIsSpace c = false) :
    parseMarkdownLine (w ++ '>' :: (ws ++ t)) = ⟨t, "Quote", 0⟩ := by
  have hgs : pyIsSpace '>' = false := by decide
  have hhead : headerMatch (w ++ '>' :: (ws ++ t)) = none := by
    refine headerMatch_none_of hw ?_
    intro c hc
    simp only [List.head?_cons, Option.some.injEq] at hc
    subst hc
    decide
  have htakew : (w ++ '>' :: (ws ++ t)).takeWhile pyIsSpace = w := by
    refine takeWhile_append_of_head w hw ?_
    intro c hc
    cases hc
    exact hgs
  have hdropw : (w ++ '>' :: (ws ++ t)).dropWhile pyIsSpace = '>' :: (ws ++ t) := by
    refine dropWhile_append_of_head w hw ?_
    intro c hc
    cases hc
    exact hgs
  have hbm : bulletMatch (w ++ '>' :: (ws ++ t)) = none := by
    unfold bulletMatch
    simp only [hdropw]
    rw [if_neg (by decide : ¬ ('>' = '*' ∨ '>' = '+' ∨ '>' = '-'))]
  have htd : ('>' :: (ws ++ t)).takeWhile pyIsDigit = [] := by
    refine takeWhile_eq_nil_of_head ?_
    intro c hc
    simp only [List.head?_cons, Option.some.injEq] at hc
    subst hc
    decide
  have hom : orderedMatch (w ++ '>' :: (ws ++ t)) = none := by
    unfold orderedMatch
    simp only [hdropw, htd]
    simp
  have hqm : quoteMatch (w ++ '>' :: (ws ++ t)) = some t := by
    unfold quoteMatch
    simp only [hdropw]
    simp [spcContent_eval hws hall ht hth]
  unfold parseMarkdownLine
  rw [hhead, hbm, hom, hqm]

theorem drop_length_takeWhile {α} (p : α → Bool) (l : List α) :
    l.drop (l.takeWhile p).length = l.dropWhile p := by
  nth_rewrite 2 [← List.takeWhile_append_dropWhile (p := p) (l := l)]
  exact List.drop_left _ _

theorem headerMatch_some_applies {l : List Char} {x : List Char × Nat}
    (h : headerMatch l = some x) : Rule1Applies l := by
  unfold headerMatch at h
  by_cases hk : 1 ≤ (l.takeWhile fun c => c == '#').length ∧
      (l.takeWhile fun c => c == '#').length ≤ 6
  · rw [if_pos hk] at h
    obtain ⟨y, hy, -⟩ := Option.map_eq_some'.mp h
    rw [drop_length_takeWhile] at hy
    refine ⟨(l.takeWhile fun c => c == '#').length, l.dropWhile fun c => c == '#', ?_, hk.1, hk.2,
      spcContent_some_shape hy⟩
    nth_rewrite 1 [← List.takeWhile_append_dropWhile (p := fun c => c == '#') (l := l)]
    congr 1
    refine List.eq_replicate_of_mem ?_
    intro b hb
    have := List.mem_takeWhile_imp hb
    simpa using this
  · rw [if_neg hk] at h
    cases h

theorem bulletMatch_some_applies {l : List Char} {x : List Char × Nat}
    (h : bulletMatch l = some x) : Rule2Applies l := by
  unfold bulletMatch at h
  rcases hdw : l.dropWhile pyIsSpace with _ | ⟨c, rest⟩
  · simp only [hdw] at h
    cases h
  · simp only [hdw] at h
    by_cases hc : c = '*' ∨ c = '+' ∨ c = '-'
    · rw [if_pos hc] at h
      obtain ⟨y, hy, -⟩ := Option.map_eq_some'.mp h
      refine ⟨l.takeWhile pyIsSpace, c, rest, ?_, hc, ?_, spcContent_some_shape hy⟩
      · intro a ha
        exact List.mem_takeWhile_imp ha
      · rw [← hdw]
        exact (List.takeWhile_append_dropWhile (p := pyIsSpace) (l := l)).symm
    · rw [if_neg hc] at h
      cases h

theorem orderedMatch_some_applies {l : List Char} {x : List Char × Nat}
    (h : orderedMatch l = some x) : Rule3Applies l := by
  unfold orderedMatch at h
  by_cases hd : (l.dropWhile pyIsSpace).takeWhile pyIsDigit = []
  · rw [if_pos hd] at h
    cases h
  · rw [if_neg hd] at h
    rcases hdd : (l.dropWhile pyIsSpace).drop
        ((l.dropWhile pyIsSpace).takeWhile pyIsDigit).length with _ | ⟨c, rest⟩
    · simp only [hdd] at h
      cases h
    · simp only [hdd] at h
      by_cases hc : c = '.'
      · rw [if_pos hc] at h
        subst hc
        obtain ⟨y, hy, -⟩ := Option.map_eq_some'.mp h
        rw [drop_length_takeWhile] at hdd
        refine ⟨l.takeWhile pyIsSpace, (l.dropWhile pyIsSpace).takeWhile pyIsDigit, rest,
          ?_, hd, ?_, ?_, spcContent_some_shape hy⟩
        · intro a ha
          exact List.mem_takeWhile_imp ha
        · intro a ha
          exact List.mem_takeWhile_imp ha
        · nth_rewrite 1 [← List.takeWhile_append_dropWhile (p := pyIsSpace) (l := l)]
          congr 1
          rw [← hdd]
          exact (List.takeWhile_append_dropWhile (p := pyIsDigit)
            (l := l.dropWhile pyIsSpace)).symm
      · rw [if_neg hc] at h
        cases h

theorem quoteMatch_some_applies {l : List Char} {t : List Char}
    (h : quoteMatch l = some t) : Rule4Applies l := by
  unfold quoteMatch at h
  rcases hdw : l.dropWhile pyIsSpace with _ | ⟨c, rest⟩
  · simp only [hdw] at h
    cases h
  · simp only [hdw] at h
    by_cases hc : c = '>'
    · rw [if_pos hc] at h
      subst hc
      refine ⟨l.takeWhile pyIsSpace, rest, ?_, ?_, spcContent_some_shape h⟩
      · intro a ha
        exact List.mem_takeWhile_imp ha
      · rw [← hdw]
        exact (List.takeWhile_append_dropWhile (p := pyIsSpace) (l := l)).symm
    · rw [if_neg hc] at h
      cases h

theorem parseMarkdownLine_normal {l : List Char}
    (h1 : ¬ Rule1Applies l) (h2 : ¬ Rule2Applies l)
    (h3 : ¬ Rule3Applies l) (h4 : ¬ Rule4Applies l) :
    parseMarkdownLine l = ⟨l, "Normal", 0⟩ := by
  have e1 : headerMatch l = none := by
    cases hh : headerMatch l with
    | none => rfl
    | some x => exact absurd (headerMatch_some_applies hh) h1
  have e2 : bulletMatch l = none := by
    cases hh : bulletMatch l with
    | none => rfl
    | some x => exact absurd (bulletMatch_some_applies hh) h2
  have e3 : orderedMatch l = none := by
    cases hh : orderedMatch l with
    | none => rfl
    | some x => exact absurd (orderedMatch_some_applies hh) h3
  have e4 : quoteMatch l = none := by
    cases hh : quoteMatch l with
    | none => rfl
    | some x => exact absurd (quoteMatch_some_applies hh) h4
  unfold parseMarkdownLine
  rw [e1, e2, e3, e4]

/-- Claim C5: `_parse_markdown_line` classifies a non-empty raw line by the
first matching rule in order: (1) 1–6 leading `#` followed by whitespace
gives a heading of that level with the marker stripped; (2) leading
whitespace, one of `*`/`+`/`-` and whitespace gives a bullet item at
nesting level ⌊indent/2⌋; (3) leading whitespace, digits, `.` and
whitespace gives a numbered item with the same nesting rule; (4) leading
whitespace, `>` and whitespace gives a blockquote; (5) anything else is a
plain paragraph at level 0.  The decompositions below are canonical: the
marker's trailing whitespace run is maximal and the content non-empty, as
the patterns `\s+(.+)$` require; the `Normal` case is characterised by the
failure of all four rule shapes.  The model is faithful for newline-free
lines, the only lines the program produces via `split('\n')`. -/
theorem c5_line_classification (l : List Char) (hnl : '\n' ∉ l) :
    (∀ k ws t, 1 ≤ k → k ≤ 6 → ws ≠ [] → (∀ c ∈ ws, pyIsSpace c = true) →
        t ≠ [] → (∀ c, t.head? = some c → pyIsSpace c = false) →
        l = List.replicate k '#' ++ (ws ++ t) →
        parseMarkdownLine l = ⟨t, "Heading " ++ Nat.repr k, 0⟩) ∧
    (∀ w b ws t, (∀ c ∈ w, pyIsSpace c = true) → (b = '*' ∨ b = '+' ∨ b = '-') →
        ws ≠ [] → (∀ c ∈ ws, pyIsSpace c = true) →
        t ≠ [] → (∀ c, t.head? = some c → pyIsSpace c = false) →
        l = w ++ b :: (ws ++ t) →
        parseMarkdownLine l = ⟨t, "List Bullet", w.length / 2⟩) ∧
    (∀ w d ws t, (∀ c ∈ w, pyIsSpace c = true) → d ≠ [] → (∀ c ∈ d, pyIsDigit c = true) →
        ws ≠ [] → (∀ c ∈ ws, pyIsSpace c = true) →
        t ≠ [] → (∀ c, t.head? = some c → pyIsSpace c = false) →
        l = w ++ (d ++ '.' :: (ws ++ t)) →
        parseMarkdownLine l = ⟨t, "List Number", w.length / 2⟩) ∧
    (∀ w ws t, (∀ c ∈ w, pyIsSpace c = true) →
        ws ≠ [] → (∀ c ∈ ws, pyIsSpace c = true) →
        t ≠ [] → (∀ c, t.head? = some c → pyIsSpace c = false) →
        l = w ++ '>' :: (ws ++ t) →
        parseMarkdownLine l = ⟨t, "Quote", 0⟩) ∧
    (¬ Rule1Applies l → ¬ Rule2Applies l → ¬ Rule3Applies l → ¬ Rule4Applies l →
        parseMarkdownLine l = ⟨l, "Normal", 0⟩) := by
  refine ⟨?_, ?_, ?_, ?_, ?_⟩
  · intro k ws t hk1 hk6 hws hall ht hth he
    subst he
    exact parseMarkdownLine_header hk1 hk6 hws hall ht hth
  · intro w b ws t hw hb hws hall ht hth he
    subst he
    exact parseMarkdownLine_bullet hw hb hws hall ht hth
  · intro w d ws t hw hd hdd hws hall ht hth he
    subst he
    exact parseMarkdownLine_ordered hw hd hdd hws hall ht hth
  · intro w ws t hw hws hall ht hth he
    subst he
    exact parseMarkdownLine_quote hw hws hall ht hth
  · intro h1 h2 h3 h4
    exact parseMarkdownLine_normal h1 h2 h3 h4

/-- Witness for C5: a concrete line per classification rule. -/
theorem c5_line_classification_witness :
    parseMarkdownLine "## My Title".data = ⟨"My Title".data, "Heading 2", 0⟩ ∧
    parseMarkdownLine "  * item".data = ⟨"item".data, "List Bullet", 1⟩ ∧
    parseMarkdownLine "12. item".data = ⟨"item".data, "List Number", 0⟩ ∧
    parseMarkdownLine "> quoted".data = ⟨"quoted".data, "Quote", 0⟩ := by
  refine ⟨?_, ?_, ?_, ?_⟩
  · exact (c5_line_classification "## My Title".data (by decide)).1
      2 [' '] "My Title".data (by decide) (by decide) (by decide) (by decide) (by decide)
      (by intro c hc; cases hc; decide) (by decide)
  · exact (c5_line_classification "  * item".data (by decide)).2.1
      [' ', ' '] '*' [' '] "item".data (by decide) (by decide) (by decide) (by decide)
      (by decide) (by intro c hc; cases hc; decide) (by decide)
  · exact (c5_line_classification "12. item".data (by decide)).2.2.1
      [] ['1', '2'] [' '] "item".data (by decide) (by decide) (by decide) (by decide)
      (by decide) (by decide) (by intro c hc; cases hc; decide) (by decide)
  · exact (c5_line_classification "> quoted".data (by decide)).2.2.2.1
      [] [' '] "quoted".data (by decide) (by decide) (by decide) (by decide)
      (by intro c hc; cases hc; decide) (by decide)

/-! ## Inline markdown span parsing (`_parse_inline_markdown`)

The code repeatedly runs `re.search` for each of the five patterns
`\*\*(.+?)\*\*`, `__(.+?)__`, `\*(.+?)\*`, `_(.+?)_`, `` `(.+?)` `` on the
unconsumed suffix, keeps the match with the strictly smallest start
(initial bound `len(text)`, so ties keep the earlier pattern in list
order), emits the text before the match as a plain span and the captured
group as a styled span, and continues after the match.  Each pattern is
`delim (.+?) delim`: `re.search` finds the smallest start position at
which the delimiter occurs and, lazily, the smallest non-empty
newline-free content followed by the closing delimiter. -/

/-- The formatting dict attached to a span: `{}`, `{'bold': True}`,
`{'italic': True}` or `{'code': True}`. -/
inductive SpanStyle
  | plain
  | bold
  | italic
  | code
  deriving DecidableEq, Repr

/-- The pattern list of `_parse_inline_markdown`, in order. -/
def inlinePatterns : List (List Char × SpanStyle) :=
  [("**".data, .bold), ("__".data, .bold), ("*".data, .italic),
   ("_".data, .italic), ("`".data, .code)]

/-- Lazy search for `(.+?)` followed by the closing delimiter `d`: starting
from accumulated content `acc`, consume characters one at a time (never a
newline, since `.` does not match `'\n'`) until the closing delimiter
matches with non-empty content.  Returns the captured content and the text
after the closing delimiter. -/
def findSplit (d : List Char) : List Char → List Char → Option (List Char × List Char)
  | acc, s =>
    if acc ≠ [] ∧ d.isPrefixOf s then some (acc, s.drop d.length)
    else
      match s with
      | [] => none
      | c :: r => if c = '\n' then none else findSplit d (acc ++ [c]) r

/-- Matching `d (.+?) d` anchored at the start of `s`. -/
def matchDelim (d : List Char) (s : List Char) : Option (List Char × List Char) :=
  if d.isPrefixOf s then findSplit d [] (s.drop d.length) else none

/-- Model of `re.search` of `d (.+?) d` in `s`: smallest start position, then lazy
content.  Returns `(start, content, text after the match)`. -/
def searchPat (d : List Char) : List Char → Option (Nat × List Char × List Char)
  | [] =>
    (match matchDelim d [] with
     | some (c, r) => some (0, c, r)
     | none => none)
  | c0 :: t =>
    (match matchDelim d (c0 :: t) with
     | some (c, r) => some (0, c, r)
     | none => (searchPat d t).map fun p => (p.1 + 1, p.2.1, p.2.2))

abbrev InlMatch := Nat × List Char × List Char

/-- The per-pattern search results for the current suffix, in pattern
order. -/
def candList (s : List Char) : List (Option InlMatch × SpanStyle) :=
  inlinePatterns.map fun p => (searchPat p.1 s, p.2)

/-- The selection loop of `_parse_inline_markdown`: iterate over the
pattern results, keeping the first match whose start is strictly below
the current bound (initially the text length). -/
def selLoop : List (Option InlMatch × SpanStyle) → Option (InlMatch × SpanStyle) → Nat →
    Option (InlMatch × SpanStyle)
  | [], best, _ => best
  | (none, _) :: cs, best, bp => selLoop cs best bp
  | (some m, st) :: cs, best, bp =>
    if m.1 < bp then selLoop cs (some (m, st)) m.1 else selLoop cs best bp

/-- The match chosen for the current suffix (`earliest_match` after the
`for pattern` loop). -/
def selectEarliest (s : List Char) : Option (InlMatch × SpanStyle) :=
  selLoop (candList s) none s.length

theorem findSplit_sound (d : List Char) :
    ∀ s acc c r, findSplit d acc s = some (c, r) →
      ∃ mid, c = acc ++ mid ∧ s = mid ++ (d ++ r) := by
  intro s
  induction s with
  | nil =>
    intro acc c r h
    unfold findSplit at h
    by_cases hcl : acc ≠ [] ∧ d.isPrefixOf ([] : List Char)
    · rw [if_pos hcl] at h
      obtain ⟨u, hu⟩ := List.isPrefixOf_iff_prefix.mp hcl.2
      obtain ⟨hd, hu'⟩ := List.append_eq_nil.mp hu
      subst hd
      simp only [Option.some.injEq, Prod.mk.injEq, List.drop_nil] at h
      obtain ⟨h1, h2⟩ := h
      subst h1
      subst h2
      exact ⟨[], by simp, by simp⟩
    · rw [if_neg hcl] at h
      cases h
  | cons c0 s0 ih =>
    intro acc c r h
    unfold findSplit at h
    by_cases hcl : acc ≠ [] ∧ d.isPrefixOf (c0 :: s0)
    · rw [if_pos hcl] at h
      obtain ⟨u, hu⟩ := List.isPrefixOf_iff_prefix.mp hcl.2
      simp only [Option.some.injEq, Prod.mk.injEq] at h
      obtain ⟨h1, h2⟩ := h
      subst h1
      refine ⟨[], by simp, ?_⟩
      rw [← hu] at h2 ⊢
      rw [List.drop_left] at h2
      rw [← h2]
      simp
    · rw [if_neg hcl] at h
      dsimp only at h
      by_cases hnl : c0 = '\n'
      · rw [if_pos hnl] at h
        cases h
      · rw [if_neg hnl] at h
        obtain ⟨mid, hmid, hs⟩ := ih _ _ _ h
        exact ⟨c0 :: mid, by simpa using hmid, by simp [hs]⟩

theorem findSplit_content_ne_nil (d : List Char) :
    ∀ s acc c r, findSplit d acc s = some (c, r) → c ≠ [] := by
  intro s
  induction s with
  | nil =>
    intro acc c r h
    unfold findSplit at h
    by_cases hcl : acc ≠ [] ∧ d.isPrefixOf ([] : List Char)
    · rw [if_pos hcl] at h
      simp only [Option.some.injEq, Prod.mk.injEq] at h
      rw [← h.1]
      exact hcl.1
    · rw [if_neg hcl] at h
      cases h
  | cons c0 s0 ih =>
    intro acc c r h
    unfold findSplit at h
    by_cases hcl : acc ≠ [] ∧ d.isPrefixOf (c0 :: s0)
    · rw [if_pos hcl] at h
      simp only [Option.some.injEq, Prod.mk.injEq] at h
      rw [← h.1]
      exact hcl.1
    · rw [if_neg hcl] at h
      dsimp only at h
      by_cases hnl : c0 = '\n'
      · rw [if_pos hnl] at h
        cases h
      · rw [if_neg hnl] at h
        have := ih _ _ _ h
        exact this

theorem matchDelim_sound {d s c r : List Char} (h : matchDelim d s = some (c, r)) :
    c ≠ [] ∧ s = d ++ (c ++ (d ++ r)) := by
  unfold matchDelim at h
  by_cases hp : d.isPrefixOf s
  · rw [if_pos hp] at h
    obtain ⟨u, hu⟩ := List.isPrefixOf_iff_prefix.mp hp
    obtain ⟨mid, hmid, hs⟩ := findSplit_sound d _ _ _ _ h
    simp only [List.nil_append] at hmid
    subst hmid
    constructor
    · exact findSplit_content_ne_nil d _ _ _ _ h
    · rw [← hu, List.drop_left] at hs
      rw [← hu, hs]
  · rw [if_neg hp] at h
    cases h

theorem searchPat_sound (d : List Char) :
    ∀ s i c r, searchPat d s = some (i, c, r) →
      ∃ pre, pre.length = i ∧ s = pre ++ (d ++ (c ++ (d ++ r))) ∧ c ≠ [] := by
  intro s
  induction s with
  | nil =>
    intro i c r h
    unfold searchPat at h
    cases hm : matchDelim d [] with
    | some p =>
      obtain ⟨hc, habs⟩ := matchDelim_sound (c := p.1) (r := p.2) (by rw [hm])
      have := congrArg List.length habs
      simp at this
      have : p.1.length = 0 := by omega
      exact absurd (List.length_eq_zero.mp this) hc
    | none =>
      rw [hm] at h
      cases h
  | cons c0 s0 ih =>
    intro i c r h
    unfold searchPat at h
    cases hm : matchDelim d (c0 :: s0) with
    | some p =>
      obtain ⟨pc, pr⟩ := p
      rw [hm] at h
      dsimp only at h
      simp only [Option.some.injEq, Prod.mk.injEq] at h
      obtain ⟨h1, h2, h3⟩ := h
      subst h1
      subst h2
      subst h3
      obtain ⟨hc, hs⟩ := matchDelim_sound hm
      exact ⟨[], rfl, by simpa using hs, hc⟩
    | none =>
      rw [hm] at h
      dsimp only at h
      cases hsp : searchPat d s0 with
      | none =>
        rw [hsp] at h
        cases h
      | some p =>
        obtain ⟨pi, pc, pr⟩ := p
        rw [hsp] at h
        simp only [Option.map_some', Option.some.injEq, Prod.mk.injEq] at h
        obtain ⟨h1, h2, h3⟩ := h
        subst h1
        subst h2
        subst h3
        obtain ⟨pre, hl, hs, hc⟩ := ih _ _ _ hsp
        exact ⟨c0 :: pre, by simp [hl], by simp [hs], hc⟩

theorem searchPat_rest_lt {d s : List Char} {i : Nat} {c r : List Char}
    (hd : d ≠ []) (h : searchPat d s = some (i, c, r)) : r.length < s.length := by
  obtain ⟨pre, hl, hs, hc⟩ := searchPat_sound d s i c r h
  have := congrArg List.length hs
  simp at this
  have h1 : 1 ≤ d.length := List.length_pos.mpr hd
  have h2 : 1 ≤ c.length := List.length_pos.mpr hc
  omega

theorem searchPat_start_lt {d s : List Char} {i : Nat} {c r : List Char}
    (hd : d ≠ []) (h : searchPat d s = some (i, c, r)) : i < s.length := by
  obtain ⟨pre, hl, hs, hc⟩ := searchPat_sound d s i c r h
  have := congrArg List.length hs
  simp at this
  have h1 : 1 ≤ d.length := List.length_pos.mpr hd
  have h2 : 1 ≤ c.length := List.length_pos.mpr hc
  omega

theorem selLoop_mem :
    ∀ (cs : List (Option InlMatch × SpanStyle)) (best : Option (InlMatch × SpanStyle))
      (bp : Nat) (m : InlMatch) (st : SpanStyle),
      selLoop cs best bp = some (m, st) → (some m, st) ∈ cs ∨ best = some (m, st) := by
  intro cs
  induction cs with
  | nil =>
    intro best bp m st h
    right
    exact h
  | cons x cs ih =>
    intro best bp m st h
    match x with
    | (none, st0) =>
      rcases ih _ _ _ _ h with h1 | h1
      · exact Or.inl (List.mem_cons_of_mem _ h1)
      · exact Or.inr h1
    | (some m0, st0) =>
      unfold selLoop at h
      by_cases hb : m0.1 < bp
      · rw [if_pos hb] at h
        rcases ih _ _ _ _ h with h1 | h1
        · exact Or.inl (List.mem_cons_of_mem _ h1)
        · injection h1 with h2
          injection h2 with h3 h4
          subst h3
          subst h4
          exact Or.inl (List.mem_cons_self _ _)
      · rw [if_neg hb] at h
        rcases ih _ _ _ _ h with h1 | h1
        · exact Or.inl (List.mem_cons_of_mem _ h1)
        · exact Or.inr h1

theorem selectEarliest_rest_lt {s : List Char} {i : Nat} {c r : List Char} {st : SpanStyle}
    (h : selectEarliest s = some ((i, c, r), st)) : r.length < s.length := by
  rcases selLoop_mem _ _ _ _ _ h with h1 | h1
  · obtain ⟨p, hp, he⟩ := List.mem_map.mp h1
    have hd : p.1 ≠ [] := by
      have : ∀ q ∈ inlinePatterns, q.1 ≠ [] := by decide
      exact this p hp
    injection he with he1 he2
    exact searchPat_rest_lt hd he1
  · cases h1

/-- Model of the scanning loop of `_parse_inline_markdown` (`while current_pos < ...`),
operating on the unconsumed suffix. -/
def inlineGo (s : List Char) : List (List Char × SpanStyle) :=
  match h : selectEarliest s with
  | none => if s = [] then [] else [(s, SpanStyle.plain)]
  | some ((i, c, r), st) =>
    (if i = 0 then [] else [(s.take i, SpanStyle.plain)]) ++ (c, st) :: inlineGo r
termination_by s.length
decreasing_by exact selectEarliest_rest_lt h

/-- Model of `_parse_inline_markdown`: the scan result, or the single empty plain
span when the input is empty (`formats if formats else [(text, {})]`). -/
def parseInlineMarkdown (s : List Char) : List (List Char × SpanStyle) :=
  if s = [] then [([], SpanStyle.plain)] else inlineGo s

/-! ### Characterising the selection loop

The spec phrases the choice as "the match with the earliest starting
position, ties broken by pattern list order".  `minStart?` is the earliest
start among the per-pattern results, `firstAt` the first candidate in
pattern order achieving it; `selLoop_eq` proves the code's fold computes
exactly that. -/

def minStart? : List (Option InlMatch × SpanStyle) → Option Nat
  | [] => none
  | (none, _) :: cs => minStart? cs
  | (some m, _) :: cs =>
    some (match minStart? cs with
          | none => m.1
          | some n => min m.1 n)

def firstAt : List (Option InlMatch × SpanStyle) → Nat → Option (InlMatch × SpanStyle)
  | [], _ => none
  | (none, _) :: cs, v => firstAt cs v
  | (some m, st) :: cs, v => if m.1 = v then some (m, st) else firstAt cs v

def firstMinUnder (cs : List (Option InlMatch × SpanStyle)) (bp : Nat) :
    Option (InlMatch × SpanStyle) :=
  match minStart? cs with
  | none => none
  | some v => if v < bp then firstAt cs v else none

theorem minStart?_isSome_of_mem :
    ∀ (cs : List (Option InlMatch × SpanStyle)) (y : Option InlMatch × SpanStyle),
      y ∈ cs → ∀ m : InlMatch, y.1 = some m → ∃ w, minStart? cs = some w := by
  intro cs
  induction cs with
  | nil => intro y hy; cases hy
  | cons x cs ih =>
    intro y hy m hm
    match x with
    | (none, st0) =>
      rcases List.mem_cons.mp hy with hy | hy
      · subst hy
        cases hm
      · show ∃ w, minStart? cs = some w
        exact ih y hy m hm
    | (some m0, st0) =>
      unfold minStart?
      cases minStart? cs <;> exact ⟨_, rfl⟩

theorem firstAt_isSome_minStart :
    ∀ cs v, minStart? cs = some v → ∃ r, firstAt cs v = some r := by
  intro cs
  induction cs with
  | nil => intro v h; cases h
  | cons x cs ih =>
    intro v h
    match x with
    | (none, st0) =>
      unfold minStart? at h
      unfold firstAt
      exact ih v h
    | (some m, st0) =>
      unfold minStart? at h
      unfold firstAt
      cases hms : minStart? cs with
      | none =>
        simp only [hms, Option.some.injEq] at h
        exact ⟨(m, st0), by rw [if_pos h]⟩
      | some n =>
        simp only [hms, Option.some.injEq] at h
        by_cases hm : m.1 = v
        · exact ⟨(m, st0), by rw [if_pos hm]⟩
        · have hv : v = n := by omega
          obtain ⟨r, hr⟩ := ih v (hv ▸ hms)
          exact ⟨r, by rw [if_neg hm]; exact hr⟩

theorem minStart?_le :
    ∀ cs v, minStart? cs = some v →
      ∀ x ∈ cs, ∀ m : InlMatch, x.1 = some m → v ≤ m.1 := by
  intro cs
  induction cs with
  | nil => intro v h; cases h
  | cons x cs ih =>
    intro v h y hy m hm
    match x with
    | (none, st0) =>
      unfold minStart? at h
      rcases List.mem_cons.mp hy with hy | hy
      · subst hy
        cases hm
      · exact ih v h y hy m hm
    | (some m0, st0) =>
      unfold minStart? at h
      cases hms : minStart? cs with
      | none =>
        simp only [hms, Option.some.injEq] at h
        rcases List.mem_cons.mp hy with hy | hy
        · subst hy
          simp only [Option.some.injEq] at hm
          subst hm
          omega
        · exfalso
          obtain ⟨w, hw⟩ := minStart?_isSome_of_mem cs y hy m hm
          rw [hw] at hms
          cases hms
      | some n =>
        simp only [hms, Option.some.injEq] at h
        rcases List.mem_cons.mp hy with hy | hy
        · subst hy
          simp only [Option.some.injEq] at hm
          subst hm
          omega
        · have := ih n hms y hy m hm
          omega

theorem firstAt_spec :
    ∀ cs v r st, firstAt cs v = some (r, st) →
      r.1 = v ∧ ∃ k, ∃ hk : k < cs.length, cs.get ⟨k, hk⟩ = (some r, st) ∧
        ∀ j, ∀ hj : j < cs.length, j < k → ∀ m' : InlMatch,
          (cs.get ⟨j, hj⟩).1 = some m' → m'.1 ≠ v := by
  intro cs
  induction cs with
  | nil => intro v r st h; cases h
  | cons x cs ih =>
    intro v r st h
    match x with
    | (none, st0) =>
      unfold firstAt at h
      obtain ⟨hv, k, hk, hget, hbefore⟩ := ih v r st h
      refine ⟨hv, k + 1, by simpa using hk, hget, ?_⟩
      intro j hj hjk m' hm'
      cases j with
      | zero => cases hm'
      | succ j0 =>
        exact hbefore j0 (by simpa using hj) (by omega) m' hm'
    | (some m, st0) =>
      unfold firstAt at h
      by_cases hm : m.1 = v
      · rw [if_pos hm] at h
        simp only [Option.some.injEq, Prod.mk.injEq] at h
        obtain ⟨h1, h2⟩ := h
        subst h1
        subst h2
        exact ⟨hm, 0, by simp, rfl, by intro j hj hjk m' hm'; omega⟩
      · rw [if_neg hm] at h
        obtain ⟨hv, k, hk, hget, hbefore⟩ := ih v r st h
        refine ⟨hv, k + 1, by simpa using hk, hget, ?_⟩
        intro j hj hjk m' hm'
        cases j with
        | zero =>
          simp only [List.get] at hm'
          simp only [Option.some.injEq] at hm'
          subst hm'
          exact hm
        | succ j0 =>
          exact hbefore j0 (by simpa using hj) (by omega) m' hm'

theorem minStart?_cons_none (st0 : SpanStyle) (cs : List (Option InlMatch × SpanStyle)) :
    minStart? ((none, st0) :: cs) = minStart? cs := rfl

theorem minStart?_cons_some (m : InlMatch) (st0 : SpanStyle)
    (cs : List (Option InlMatch × SpanStyle)) :
    minStart? ((some m, st0) :: cs)
      = some (match minStart? cs with | none => m.1 | some n => min m.1 n) := rfl

theorem firstAt_cons_none (st0 : SpanStyle) (cs : List (Option InlMatch × SpanStyle)) (v : Nat) :
    firstAt ((none, st0) :: cs) v = firstAt cs v := rfl

theorem firstAt_cons_some (m : InlMatch) (st0 : SpanStyle)
    (cs : List (Option InlMatch × SpanStyle)) (v : Nat) :
    firstAt ((some m, st0) :: cs) v = if m.1 = v then some (m, st0) else firstAt cs v := rfl

theorem firstMinUnder_eval (cs : List (Option InlMatch × SpanStyle)) (bp : Nat) :
    firstMinUnder cs bp
      = match minStart? cs with
        | none => none
        | some v => if v < bp then firstAt cs v else none := rfl

theorem selLoop_eq (cs : List (Option InlMatch × SpanStyle)) :
    ∀ best bp, selLoop cs best bp =
      match firstMinUnder cs bp with
      | some r => some r
      | none => best := by
  induction cs with
  | nil =>
    intro best bp
    simp [selLoop, firstMinUnder, minStart?]
  | cons x cs ih =>
    intro best bp
    match x with
    | (none, st0) =>
      show selLoop cs best bp = _
      rw [ih, firstMinUnder_eval, firstMinUnder_eval, minStart?_cons_none]
      cases hms : minStart? cs with
      | none => rfl
      | some v =>
        dsimp only
        by_cases hv : v < bp
        · rw [if_pos hv, firstAt_cons_none, if_pos hv]
        · rw [if_neg hv, if_neg hv]
    | (some m, st0) =>
      show (if m.1 < bp then selLoop cs (some (m, st0)) m.1 else selLoop cs best bp) = _
      rw [firstMinUnder_eval, minStart?_cons_some]
      by_cases hb : m.1 < bp
      · rw [if_pos hb, ih, firstMinUnder_eval]
        cases hms : minStart? cs with
        | none =>
          dsimp only
          rw [if_pos hb, firstAt_cons_some, if_pos rfl]
        | some n =>
          dsimp only
          by_cases hmn : m.1 ≤ n
          · have hmin : min m.1 n = m.1 := by omega
            rw [if_neg (by omega : ¬ n < m.1), hmin, if_pos hb, firstAt_cons_some, if_pos rfl]
          · have hmin : min m.1 n = n := by omega
            rw [if_pos (by omega : n < m.1), hmin, if_pos (by omega : n < bp),
              firstAt_cons_some, if_neg (by omega : ¬ m.1 = n)]
            obtain ⟨r, hr⟩ := firstAt_isSome_minStart cs n hms
            rw [hr]
      · rw [if_neg hb, ih, firstMinUnder_eval]
        cases hms : minStart? cs with
        | none =>
          dsimp only
          rw [if_neg hb]
        | some n =>
          dsimp only
          by_cases hnb : n < bp
          · obtain ⟨r, hr⟩ := firstAt_isSome_minStart cs n hms
            have hmin : min m.1 n = n := by omega
            have hmne : ¬ m.1 = n := by omega
            simp [hmin, hnb, hr, firstAt_cons_some, hmne]
          · have hminb : ¬ min m.1 n < bp := by omega
            simp [hnb, hminb]

theorem candList_length (s : List Char) : (candList s).length = inlinePatterns.length := by
  simp [candList]

theorem candList_get (s : List Char) (j : Nat) (hj : j < inlinePatterns.length) :
    (candList s).get ⟨j, by rw [candList_length]; exact hj⟩
      = (searchPat inlinePatterns[j].1 s, inlinePatterns[j].2) := by
  simp [candList]

/-- The spec-side selection criterion for one scanning step: some pattern
(the `k`-th) matched with result `m` and style `st`, its start is minimal
among all pattern matches, and every pattern earlier in the list matches
strictly later — "earliest starting position, ties broken by pattern list
order". -/
def ChosenMatch (s : List Char) (m : InlMatch) (st : SpanStyle) : Prop :=
  ∃ k, ∃ hk : k < inlinePatterns.length,
    searchPat inlinePatterns[k].1 s = some m ∧
    st = inlinePatterns[k].2 ∧
    (∀ j, ∀ hj : j < inlinePatterns.length, ∀ m' : InlMatch,
      searchPat inlinePatterns[j].1 s = some m' → m.1 ≤ m'.1) ∧
    (∀ j, ∀ hj : j < inlinePatterns.length, j < k → ∀ m' : InlMatch,
      searchPat inlinePatterns[j].1 s = some m' → m.1 < m'.1)

theorem selectEarliest_some_chosen {s : List Char} {m : InlMatch} {st : SpanStyle}
    (h : selectEarliest s = some (m, st)) : ChosenMatch s m st := by
  unfold selectEarliest at h
  rw [selLoop_eq] at h
  cases hfm : firstMinUnder (candList s) s.length with
  | none =>
    rw [hfm] at h
    cases h
  | some r =>
    rw [hfm] at h
    dsimp only at h
    injection h with h1
    subst h1
    rw [firstMinUnder_eval] at hfm
    cases hms : minStart? (candList s) with
    | none =>
      rw [hms] at hfm
      cases hfm
    | some v =>
      rw [hms] at hfm
      dsimp only at hfm
      by_cases hv : v < s.length
      · rw [if_pos hv] at hfm
        obtain ⟨hmv, k, hk, hget, hbefore⟩ := firstAt_spec _ _ _ _ hfm
        have hk' : k < inlinePatterns.length := by
          rw [← candList_length s]
          exact hk
        have hgk := candList_get s k hk'
        have hkey : (searchPat inlinePatterns[k].1 s, inlinePatterns[k].2)
            = ((some m : Option InlMatch), st) := by
          rw [← hgk]
          exact hget
        have hle : ∀ j, ∀ hj : j < inlinePatterns.length, ∀ m' : InlMatch,
            searchPat inlinePatterns[j].1 s = some m' → m.1 ≤ m'.1 := by
          intro j hj m' hsp
          have hj2 : j < (candList s).length := by
            rw [candList_length]
            exact hj
          have hmem : (candList s).get ⟨j, hj2⟩ ∈ candList s := List.get_mem _ _ _
          have hg := candList_get s j hj
          have := minStart?_le _ _ hms _ hmem m' (by rw [hg, hsp])
          omega
        refine ⟨k, hk', ?_, ?_, hle, ?_⟩
        · have := congrArg Prod.fst hkey
          simpa using this
        · have := congrArg Prod.snd hkey
          simp at this
          exact this.symm
        · intro j hj hjk m' hsp
          have hj2 : j < (candList s).length := by
            rw [candList_length]
            exact hj
          have hg := candList_get s j hj
          have hne := hbefore j hj2 hjk m' (by rw [hg, hsp])
          have := hle j hj m' hsp
          omega
      · rw [if_neg hv] at hfm
        cases hfm

theorem selectEarliest_none_nomatch {s : List Char} (h : selectEarliest s = none) :
    ∀ j, ∀ hj : j < inlinePatterns.length, searchPat inlinePatterns[j].1 s = none := by
  intro j hj
  cases hsp : searchPat inlinePatterns[j].1 s with
  | none => rfl
  | some m' =>
    exfalso
    unfold selectEarliest at h
    rw [selLoop_eq] at h
    have hj2 : j < (candList s).length := by
      rw [candList_length]
      exact hj
    have hmem : (candList s).get ⟨j, hj2⟩ ∈ candList s := List.get_mem _ _ _
    have hg := candList_get s j hj
    obtain ⟨w, hw⟩ := minStart?_isSome_of_mem _ _ hmem m' (by rw [hg, hsp])
    obtain ⟨r, hr⟩ := firstAt_isSome_minStart _ _ hw
    obtain ⟨rm, rst⟩ := r
    obtain ⟨hrv, k, hk, hget, -⟩ := firstAt_spec _ _ _ _ hr
    have hk' : k < inlinePatterns.length := by
      rw [← candList_length s]
      exact hk
    have hgk := candList_get s k hk'
    have hsp2 : searchPat inlinePatterns[k].1 s = some rm := by
      have hkey : (searchPat inlinePatterns[k].1 s, inlinePatterns[k].2)
          = ((some rm : Option InlMatch), rst) := by
        rw [← hgk]
        exact hget
      have := congrArg Prod.fst hkey
      simpa using this
    have hd : inlinePatterns[k].1 ≠ [] := by
      have hall : ∀ q ∈ inlinePatterns, q.1 ≠ [] := by decide
      exact hall _ (List.getElem_mem hk')
    have hlt := searchPat_start_lt hd hsp2
    rw [firstMinUnder_eval, hw] at h
    dsimp only at h
    rw [if_pos (by omega : w < s.length), hr] at h
    cases h

/-- The spec of the inline scanner as a relation (claim C6): scanning an
empty suffix yields nothing; if no pattern matches, the whole suffix is
one unstyled span; otherwise the chosen match (earliest start, ties by
pattern order) contributes the plain text before it (when non-empty) and
its captured content as a styled span, and scanning continues after the
match. -/
inductive InlineScanRel : List Char → List (List Char × SpanStyle) → Prop where
  | nil : InlineScanRel [] []
  | noMatch (s : List Char) (hne : s ≠ [])
      (h : ∀ j, ∀ hj : j < inlinePatterns.length, searchPat inlinePatterns[j].1 s = none) :
      InlineScanRel s [(s, SpanStyle.plain)]
  | matchHead (s : List Char) (c r : List Char) (st : SpanStyle)
      (out : List (List Char × SpanStyle))
      (h : ChosenMatch s (0, c, r) st) (hrest : InlineScanRel r out) :
      InlineScanRel s ((c, st) :: out)
  | matchMid (s : List Char) (i : Nat) (c r : List Char) (st : SpanStyle)
      (out : List (List Char × SpanStyle))
      (hi : 0 < i) (h : ChosenMatch s (i, c, r) st) (hrest : InlineScanRel r out) :
      InlineScanRel s ((s.take i, SpanStyle.plain) :: (c, st) :: out)

/-- Claim C6: For every content string, `_parse_inline_markdown` scans left
to right: at each step it selects the match with the earliest starting
position among the patterns `**…**`, `__…__`, `*…*`, `_…_`, `` `…` ``
(ties in starting position broken by pattern list order), emits any plain
text before the match as an unstyled span and the matched content as a
styled span, and emits unmatched trailing text as a final unstyled span
— i.e. the result satisfies the specification relation `InlineScanRel`. -/
theorem c6_inline_scan_spec : ∀ s : List Char, s ≠ [] →
    InlineScanRel s (parseInlineMarkdown s) := by
  have main : ∀ n (s : List Char), s.length ≤ n → InlineScanRel s (inlineGo s) := by
    intro n
    induction n with
    | zero =>
      intro s hs
      have hnil : s = [] := List.length_eq_zero.mp (by omega)
      subst hnil
      have : inlineGo [] = [] := by
        rw [inlineGo]
        rfl
      rw [this]
      exact InlineScanRel.nil
    | succ n ih =>
      intro s hs
      rw [inlineGo]
      cases hsel : selectEarliest s with
      | none =>
        by_cases hne : s = []
        · subst hne
          rw [if_pos rfl]
          exact InlineScanRel.nil
        · rw [if_neg hne]
          exact InlineScanRel.noMatch s hne (selectEarliest_none_nomatch hsel)
      | some rs =>
        obtain ⟨⟨i, c, r⟩, st⟩ := rs
        dsimp only
        have hch := selectEarliest_some_chosen hsel
        have hrlt := selectEarliest_rest_lt hsel
        have hrest : InlineScanRel r (inlineGo r) := ih r (by omega)
        by_cases hi : i = 0
        · subst hi
          rw [if_pos rfl]
          rw [List.nil_append]
          exact InlineScanRel.matchHead s c r st _ hch hrest
        · rw [if_neg hi]
          rw [List.singleton_append]
          exact InlineScanRel.matchMid s i c r st _ (by omega) hch hrest
  intro s hs
  rw [parseInlineMarkdown, if_neg hs]
  exact main s.length s le_rfl

/-- Witness for C6 at a concrete content string. -/
theorem c6_inline_scan_spec_witness :
    InlineScanRel "Some *italic* and **bold** text.".data
      (parseInlineMarkdown "Some *italic* and **bold** text.".data) :=
  c6_inline_scan_spec "Some *italic* and **bold** text.".data (by decide)

/-! ## Document recomposition (`improve_document`, lines 360–424, and
`_add_image_to_doc`)

The recomposer walks the rewritten text line by line.  A blank line
flushes the accumulated lines into one paragraph; a line whose stripped
form matches `\[IMAGE:([^]]+)\]` (via `re.match`, so anchored at the
start, trailing text ignored) first flushes, then resolves the image id:
a registered id embeds the image (and is evicted from the registry), the
sentinel id degrades to a plain-text paragraph, anything else is ignored;
any other line is appended to the current group.  The styled paragraph is
modelled as the block kind of its first line plus the raw remaining lines
(the code adds them to the same paragraph joined by explicit `'\n'`
runs). -/

/-- One output element of the recomposed document. -/
inductive RBlock
  | para (style : String) (level : Nat) (first : List Char) (rest : List (List Char))
  | pic (id : List Char)
  | textOnly (s : List Char)
  deriving DecidableEq, Repr

/-- Model of `re.match(r'\[IMAGE:([^]]+)\]', line.strip())`: the raw captured group
(before the caller's `.strip()`), or `none`. -/
def lineImageId (line : List Char) : Option (List Char) :=
  let t := pyStrip line
  if "[IMAGE:".data.isPrefixOf t then
    let rest := t.drop 7
    let cap := rest.takeWhile fun c => c ≠ ']'
    if cap ≠ [] ∧ (rest.drop cap.length).take 1 = [']'] then some cap else none
  else none

/-- The recomposition state: emitted blocks, accumulated per-image error
strings, the registry, and the current line group. -/
structure RecompSt where
  blocks : List RBlock
  errors : List (List Char)
  map : List (List Char × ImgAsset)
  current : List (List Char)
  deriving DecidableEq, Repr

/-- Association-list lookup, modelling `image_id in self._image_map` /
`self._image_map[image_id]`. -/
def lookupAsset : List (List Char × ImgAsset) → List Char → Option ImgAsset
  | [], _ => none
  | (k, a) :: r, id => if k = id then some a else lookupAsset r id

/-- Model of `del self._image_map[image_id]` (dict keys are unique, so deleting the
first occurrence is faithful). -/
def eraseAsset : List (List Char × ImgAsset) → List Char → List (List Char × ImgAsset)
  | [], _ => []
  | (k, a) :: r, id => if k = id then r else (k, a) :: eraseAsset r id

/-- The error string recorded when embedding a registered image raises
(`f"Error adding image {image_id}: ..."`; the exception text is
abstracted away). -/
def errMsgFor (id : List Char) : List Char := "Error adding image ".data ++ id

/-- Flushing `current_lines` into one formatted paragraph whose style is
parsed from the group's first line. -/
def mkPara (l : List Char) (ls : List (List Char)) : RBlock :=
  let cl := parseMarkdownLine l
  RBlock.para cl.style cl.level cl.content ls

def flushSt (st : RecompSt) : RecompSt :=
  match st.current with
  | [] => st
  | l :: ls => { st with blocks := st.blocks ++ [mkPara l ls], current := [] }

/-- Processing one line of the rewritten text (the body of the
`for line in improved_text.split('\n')` loop). -/
def stepLine (st : RecompSt) (line : List Char) : RecompSt :=
  if pyStrip line = [] then flushSt st
  else
    match lineImageId line with
    | some cap =>
      let st1 := flushSt st
      let id := pyStrip cap
      match lookupAsset st1.map id with
      | some a =>
        if a.ok then
          { st1 with blocks := st1.blocks ++ [RBlock.pic id], map := eraseAsset st1.map id }
        else
          { st1 with errors := st1.errors ++ [errMsgFor id], map := eraseAsset st1.map id }
      | none =>
        if pyStrip id = sentinelText then
          { st1 with blocks := st1.blocks ++ [RBlock.textOnly ("[IMAGE: ".data ++ id ++ "]".data)] }
        else st1
    | none => { st with current := st.current ++ [line] }

def recompFold (st : RecompSt) (lines : List (List Char)) : RecompSt :=
  lines.foldl stepLine st

/-- The whole recomposition loop over a list of lines, including the final
flush of any remaining accumulated lines. -/
def recomposeLinesList (m : List (List Char × ImgAsset)) (lines : List (List Char)) : RecompSt :=
  flushSt (recompFold ⟨[], [], m, []⟩ lines)

/-- Recomposition of a whole rewritten text. -/
def recomposeText (m : List (List Char × ImgAsset)) (text : List Char) : RecompSt :=
  recomposeLinesList m (splitNl text)

/-! ## The orchestration (`improve_document`)

The OpenAI call is the Rewrite Gateway: an opaque function from the
decomposed text to either rewritten text or a raised exception (the
`except` clause of `improve_document` turns any exception into an error
result).  `gatewayCalls` counts how many times the gateway was invoked,
to state "the gateway is never called" claims. -/

inductive ImpError
  | emptyDoc
  | totalTooLarge (totalBytes : Nat)
  | gateway (msg : String)
  deriving DecidableEq, Repr

inductive ImpOutcome
  | ok (blocks : List RBlock) (errors : List (List Char))
  | failed (e : ImpError)
  deriving DecidableEq, Repr

structure ImpResult where
  outcome : ImpOutcome
  imageMap : List (List Char × ImgAsset)
  gatewayCalls : Nat
  deriving DecidableEq, Repr

/-- The registry with its keys rendered as id strings, as the recomposer
consumes it. -/
def renderMap (m : List (Nat × ImgAsset)) : List (List Char × ImgAsset) :=
  m.map fun p => (uuidRender p.1, p.2)

/-- Model of `sum(len(img['bytes']) for img in self._image_map.values())`. -/
def totalImageSize (m : List (Nat × ImgAsset)) : Nat :=
  (m.map fun p => p.2.size).sum

/-- Model of `improve_document`: decompose; fail on empty text; fail when the
aggregate registered image size exceeds `MAX_TOTAL_SIZE`; otherwise call
the gateway once and recompose its output.  The final registry state is
returned to reason about session cleanup. -/
def improveDocument (doc : WDoc) (gw : List Char → Except String (List Char)) : ImpResult :=
  let ex := extractTextAndImages doc
  let m := renderMap ex.imageMap
  let text := joinNl (ex.lines.map renderLine)
  if pyStrip text = [] then ⟨.failed .emptyDoc, m, 0⟩
  else if MAX_TOTAL_SIZE < totalImageSize ex.imageMap then
    ⟨.failed (.totalTooLarge (totalImageSize ex.imageMap)), m, 0⟩
  else
    match gw text with
    | .error e => ⟨.failed (.gateway e), m, 1⟩
    | .ok improved =>
      let st := recomposeText m improved
      ⟨.ok st.blocks st.errors, st.map, 1⟩

/-- A document with at least one registered image decomposes to text that
is not pure whitespace: the registered image's placeholder contains `'['`. -/
theorem extract_text_nonblank_of_map_ne_nil {doc : WDoc}
    (h : (extractTextAndImages doc).imageMap ≠ []) :
    pyStrip (joinNl ((extractTextAndImages doc).lines.map renderLine)) ≠ [] := by
  obtain ⟨h1, -⟩ := extract_fold_inv doc ⟨[], [], 0⟩ (by simp [phIds]) (by simp)
  have hph : phIds (extractTextAndImages doc).lines ≠ [] := by
    intro hc
    have : (extractTextAndImages doc).imageMap.map Prod.fst = [] := by
      show (List.foldl paraStep ⟨[], [], 0⟩ doc).imageMap.map Prod.fst = []
      rw [h1]
      exact hc
    exact h (List.map_eq_nil_iff.mp this)
  obtain ⟨x, hx⟩ := List.exists_mem_of_ne_nil _ hph
  obtain ⟨lp, hlp, hxlp⟩ := List.mem_flatten.mp hx
  obtain ⟨line, hline, hlineeq⟩ := List.mem_map.mp hlp
  subst hlineeq
  obtain ⟨seg, hseg, hsegx⟩ := List.mem_filterMap.mp hxlp
  have hphseg : seg = Seg.ph x := by
    cases seg <;> simp_all
  have hbr : '[' ∈ renderLine line := by
    refine List.mem_flatten.mpr ⟨segRender seg, List.mem_map_of_mem _ hseg, ?_⟩
    rw [hphseg]
    simp [segRender]
  have hmem : renderLine line ∈ (extractTextAndImages doc).lines.map renderLine :=
    List.mem_map_of_mem _ hline
  exact pyStrip_ne_nil_of_mem (mem_joinNl_of_mem hmem hbr) (by decide)

/-- Claim C4: For every document whose decomposed text is empty or nothing
but whitespace, `improve_document` returns the "Document is empty" error
and the Rewrite Gateway is never invoked (zero gateway calls). -/
theorem c4_empty_document_error (doc : WDoc) (gw : List Char → Except String (List Char))
    (h : pyStrip (joinNl ((extractTextAndImages doc).lines.map renderLine)) = []) :
    improveDocument doc gw
      = ⟨.failed .emptyDoc, renderMap (extractTextAndImages doc).imageMap, 0⟩ := by
  unfold improveDocument
  rw [if_pos h]

/-- Witness for C4 on a whitespace-only document. -/
theorem c4_empty_document_error_witness :
    improveDocument [[Run.textRun "   ".data], []] (fun t => Except.ok t)
      = ⟨.failed .emptyDoc,
         renderMap (extractTextAndImages [[Run.textRun "   ".data], []]).imageMap, 0⟩ :=
  c4_empty_document_error [[Run.textRun "   ".data], []] (fun t => Except.ok t) (by decide)

/-- Claim C3: For every document whose registered images sum to more than the
aggregate threshold, `improve_document` fails with the size-comparison
error carrying the offending total, and the Rewrite Gateway is never
invoked (zero gateway calls) — regardless of the per-image sizes. -/
theorem c3_aggregate_size_guard (doc : WDoc) (gw : List Char → Except String (List Char))
    (h : MAX_TOTAL_SIZE < totalImageSize (extractTextAndImages doc).imageMap) :
    improveDocument doc gw
      = ⟨.failed (.totalTooLarge (totalImageSize (extractTextAndImages doc).imageMap)),
         renderMap (extractTextAndImages doc).imageMap, 0⟩ := by
  have hmap : (extractTextAndImages doc).imageMap ≠ [] := by
    intro hc
    rw [hc] at h
    simp [totalImageSize, MAX_TOTAL_SIZE] at h
  have hne := extract_text_nonblank_of_map_ne_nil hmap
  unfold improveDocument
  rw [if_neg hne, if_pos h]

/-- A document with six 9MB images: each under the 10MB per-image
threshold, 54MB in aggregate. -/
def sixNineMbDoc : WDoc :=
  [[Run.imageRun ⟨9437184, true⟩, Run.imageRun ⟨9437184, true⟩,
    Run.imageRun ⟨9437184, true⟩, Run.imageRun ⟨9437184, true⟩,
    Run.imageRun ⟨9437184, true⟩, Run.imageRun ⟨9437184, true⟩]]

/-- Witness for C3: six 9MB images (each under the 10MB per-image
threshold) summing to 54MB. -/
theorem c3_aggregate_size_guard_witness :
    improveDocument sixNineMbDoc (fun t => Except.ok t)
      = ⟨.failed (.totalTooLarge (totalImageSize (extractTextAndImages sixNineMbDoc).imageMap)),
         renderMap (extractTextAndImages sixNineMbDoc).imageMap, 0⟩ :=
  c3_aggregate_size_guard sixNineMbDoc (fun t => Except.ok t) (by decide)

/-- Claim C9, evidence of the code bug: On the failure path the conversion
session's state is NOT destroyed: when the gateway raises, `improve_document`
returns the error result while the image registry still holds the
registered asset.  The `__enter__`/`__exit__` machinery that would clear
it is not invoked by `improve_document`, and `app.py` calls
`improve_document` on a module-level processor outside any `with` block. -/
theorem c9_registry_not_cleared_on_failure :
    improveDocument [[Run.imageRun ⟨5, true⟩]] (fun _ => Except.error "API failure")
      = ⟨.failed (.gateway "API failure"), [("uuid-0".data, ⟨5, true⟩)], 1⟩ ∧
    (improveDocument [[Run.imageRun ⟨5, true⟩]]
        (fun _ => Except.error "API failure")).imageMap ≠ [] := by
  constructor
  · decide
  · decide

/-! ### Structure of the line-grouping loop -/

/-- The block (if any) contributed by flushing a line group. -/
def flushAdd : List (List Char) → List RBlock
  | [] => []
  | l :: ls => [mkPara l ls]

theorem flushSt_eq (st : RecompSt) :
    flushSt st = ⟨st.blocks ++ flushAdd st.current, st.errors, st.map, []⟩ := by
  obtain ⟨B, E, m, cur⟩ := st
  cases cur with
  | nil => simp [flushSt, flushAdd]
  | cons l ls => simp [flushSt, flushAdd]

/-- The step function `stepLine` only appends to `blocks` and `errors`; what it appends and
how it updates `map`/`current` depend only on `map`, `current` and the
line. -/
theorem stepLine_split (st : RecompSt) (line : List Char) :
    stepLine st line
      = ⟨st.blocks ++ (stepLine ⟨[], [], st.map, st.current⟩ line).blocks,
         st.errors ++ (stepLine ⟨[], [], st.map, st.current⟩ line).errors,
         (stepLine ⟨[], [], st.map, st.current⟩ line).map,
         (stepLine ⟨[], [], st.map, st.current⟩ line).current⟩ := by
  obtain ⟨B, E, m, cur⟩ := st
  unfold stepLine
  by_cases hb : pyStrip line = []
  · rw [if_pos hb, if_pos hb, flushSt_eq, flushSt_eq]
    simp
  · rw [if_neg hb, if_neg hb]
    cases hid : lineImageId line with
    | none => simp
    | some cap =>
      dsimp only
      rw [flushSt_eq, flushSt_eq]
      dsimp only
      cases hl : lookupAsset m (pyStrip cap) with
      | some a =>
        by_cases hok : a.ok <;> simp [hl, hok]
      | none =>
        by_cases hs : pyStrip (pyStrip cap) = sentinelText <;> simp [hl, hs]

theorem recompFold_split (lines : List (List Char)) :
    ∀ st : RecompSt,
      recompFold st lines
        = ⟨st.blocks ++ (recompFold ⟨[], [], st.map, st.current⟩ lines).blocks,
           st.errors ++ (recompFold ⟨[], [], st.map, st.current⟩ lines).errors,
           (recompFold ⟨[], [], st.map, st.current⟩ lines).map,
           (recompFold ⟨[], [], st.map, st.current⟩ lines).current⟩ := by
  induction lines with
  | nil =>
    intro st
    obtain ⟨B, E, m, cur⟩ := st
    simp [recompFold]
  | cons l ls ih =>
    intro st
    show recompFold (stepLine st l) ls = _
    rw [ih (stepLine st l)]
    rw [stepLine_split st l]
    have hr := ih (stepLine ⟨[], [], st.map, st.current⟩ l)
    show _ = ⟨st.blocks ++ (recompFold (stepLine ⟨[], [], st.map, st.current⟩ l) ls).blocks,
      st.errors ++ (recompFold (stepLine ⟨[], [], st.map, st.current⟩ l) ls).errors,
      (recompFold (stepLine ⟨[], [], st.map, st.current⟩ l) ls).map,
      (recompFold (stepLine ⟨[], [], st.map, st.current⟩ l) ls).current⟩
    rw [hr]
    simp

/-- Lines that are non-blank and not image placeholders are only
accumulated into the current group. -/
theorem recompFold_text_lines (ls : List (List Char))
    (hl : ∀ l ∈ ls, pyStrip l ≠ [] ∧ lineImageId l = none) :
    ∀ st : RecompSt, recompFold st ls = { st with current := st.current ++ ls } := by
  induction ls with
  | nil =>
    intro st
    obtain ⟨B, E, m, cur⟩ := st
    simp [recompFold]
  | cons l ls ih =>
    intro st
    obtain ⟨hb, hid⟩ := hl l (by simp)
    show recompFold (stepLine st l) ls = _
    have hstep : stepLine st l = { st with current := st.current ++ [l] } := by
      unfold stepLine
      rw [if_neg hb, hid]
    rw [hstep, ih (fun l hm => hl l (by simp [hm]))]
    simp

theorem flushSt_idem (st : RecompSt) : flushSt (flushSt st) = flushSt st := by
  rw [flushSt_eq st, flushSt_eq]
  simp [flushAdd]

/-- A line recognised as an image placeholder is never blank. -/
theorem lineImageId_some_nonblank {line cap : List Char}
    (h : lineImageId line = some cap) : pyStrip line ≠ [] := by
  intro hb
  unfold lineImageId at h
  rw [hb] at h
  simp at h

/-- For an image placeholder line, the step is insensitive to a pending
flush: the branch flushes first anyway. -/
theorem stepLine_image_flush (st : RecompSt) {line cap : List Char}
    (h : lineImageId line = some cap) :
    stepLine st line = stepLine (flushSt st) line := by
  have hb := lineImageId_some_nonblank h
  unfold stepLine
  rw [if_neg hb, if_neg hb, h]
  dsimp only
  rw [flushSt_idem]

theorem recompFold_append (st : RecompSt) (a b : List (List Char)) :
    recompFold st (a ++ b) = recompFold (recompFold st a) b := by
  simp [recompFold, List.foldl_append]

/-- Claim C7, counterexample to the claim as stated: Two adjacent non-blank
lines that classify to different block kinds (`# T` is a Heading 1 line,
`body` a plain paragraph line) are nevertheless grouped into one block,
whose kind comes from the first line. -/
theorem c7_kind_grouping_counterexample :
    (parseMarkdownLine "# T".data).style = "Heading 1" ∧
    (parseMarkdownLine "body".data).style = "Normal" ∧
    recomposeLinesList [] ["# T".data, "body".data]
      = ⟨[RBlock.para "Heading 1" 0 "T".data ["body".data]], [], [], []⟩ := by
  refine ⟨by decide, by decide, by decide⟩

/-- Claim C7, amended: During recomposition, ALL adjacent non-blank
non-placeholder lines are grouped into one block regardless of their
individual classification; the block's kind and nesting level are taken
from the group's first line and the remaining lines are carried raw in the
same block (joined by explicit line-break runs).  A blank line or an image
placeholder line always terminates the current grouping, after which
processing continues independently. -/
theorem c7_line_grouping (m : List (List Char × ImgAsset)) (post : List (List Char))
    (l0 : List Char) (ls' : List (List Char))
    (hl : ∀ l ∈ l0 :: ls', pyStrip l ≠ [] ∧ lineImageId l = none) :
    recomposeLinesList m (l0 :: ls') = ⟨[mkPara l0 ls'], [], m, []⟩ ∧
    recomposeLinesList m ((l0 :: ls') ++ [] :: post)
      = ⟨mkPara l0 ls' :: (recomposeLinesList m post).blocks,
         (recomposeLinesList m post).errors, (recomposeLinesList m post).map, []⟩ ∧
    (∀ img cap, lineImageId img = some cap →
      recomposeLinesList m ((l0 :: ls') ++ img :: post)
        = ⟨mkPara l0 ls' :: (recomposeLinesList m (img :: post)).blocks,
           (recomposeLinesList m (img :: post)).errors,
           (recomposeLinesList m (img :: post)).map, []⟩) := by
  refine ⟨?_, ?_, ?_⟩
  · unfold recomposeLinesList
    rw [recompFold_text_lines _ hl]
    rw [flushSt_eq]
    simp [flushAdd]
  · unfold recomposeLinesList
    rw [recompFold_append, recompFold_text_lines _ hl]
    show flushSt (recompFold (stepLine ⟨[], [], m, [] ++ (l0 :: ls')⟩ []) post) = _
    have hstep : stepLine ⟨[], [], m, [] ++ (l0 :: ls')⟩ [] = ⟨[mkPara l0 ls'], [], m, []⟩ := by
      unfold stepLine
      rw [if_pos (by decide : pyStrip [] = []), flushSt_eq]
      simp [flushAdd]
    rw [hstep, recompFold_split post]
    rw [flushSt_eq, flushSt_eq]
    simp
  · intro img cap hid
    unfold recomposeLinesList
    rw [recompFold_append, recompFold_text_lines _ hl]
    show flushSt (recompFold (stepLine ⟨[], [], m, [] ++ (l0 :: ls')⟩ img) post) = _
    have hstep : stepLine ⟨[], [], m, [] ++ (l0 :: ls')⟩ img
        = stepLine ⟨[mkPara l0 ls'], [], m, []⟩ img := by
      rw [stepLine_image_flush _ hid, flushSt_eq]
      simp [flushAdd]
    rw [hstep, stepLine_split ⟨[mkPara l0 ls'], [], m, []⟩ img]
    dsimp only
    rw [recompFold_split post]
    dsimp only
    have hrhs : recompFold ⟨[], [], m, []⟩ (img :: post)
        = recompFold (stepLine ⟨[], [], m, []⟩ img) post := rfl
    rw [hrhs, recompFold_split post (stepLine ⟨[], [], m, []⟩ img)]
    rw [flushSt_eq, flushSt_eq]
    simp

/-- Witness for C7 (amended) on concrete line groups. -/
theorem c7_line_grouping_witness :
    recomposeLinesList [] ["a".data, "b".data] = ⟨[mkPara "a".data ["b".data]], [], [], []⟩ ∧
    recomposeLinesList [] (["a".data, "b".data] ++ [] :: ["p".data])
      = ⟨mkPara "a".data ["b".data] :: (recomposeLinesList [] ["p".data]).blocks,
         (recomposeLinesList [] ["p".data]).errors,
         (recomposeLinesList [] ["p".data]).map, []⟩ :=
  ⟨(c7_line_grouping [] ["p".data] "a".data ["b".data] (by decide)).1,
   (c7_line_grouping [] ["p".data] "a".data ["b".data] (by decide)).2.1⟩

theorem lookupAsset_eq_none :
    ∀ (m : List (List Char × ImgAsset)) (k : List Char),
      (∀ key ∈ m.map Prod.fst, key ≠ k) → lookupAsset m k = none := by
  intro m
  induction m with
  | nil => intro k h; rfl
  | cons e r ih =>
    intro k h
    obtain ⟨ek, ea⟩ := e
    unfold lookupAsset
    have hm : ek ∈ ((ek, ea) :: r).map Prod.fst :=
      List.mem_map_of_mem _ (List.mem_cons_self _ _)
    rw [if_neg (h ek hm)]
    refine ih k ?_
    intro key hk
    exact h key (List.mem_cons_of_mem _ hk)

/-- Claim C10: An image placeholder line whose id is neither a registry key
nor the "too large" sentinel is silently ignored: no block is emitted for
it, no error is recorded, and the registry is untouched. -/
theorem c10_unknown_placeholder_ignored (m : List (List Char × ImgAsset))
    (line cap : List Char)
    (hid : lineImageId line = some cap)
    (hmem : lookupAsset m (pyStrip cap) = none)
    (hsent : pyStrip (pyStrip cap) ≠ sentinelText) :
    recomposeLinesList m [line] = ⟨[], [], m, []⟩ := by
  have hb := lineImageId_some_nonblank hid
  have hflush : flushSt ⟨[], [], m, []⟩ = ⟨[], [], m, []⟩ := by
    rw [flushSt_eq]
    simp [flushAdd]
  have hstep : stepLine ⟨[], [], m, []⟩ line = ⟨[], [], m, []⟩ := by
    unfold stepLine
    rw [if_neg hb, hid]
    dsimp only
    rw [hflush]
    dsimp only
    rw [hmem]
    dsimp only
    rw [if_neg hsent]
  show flushSt (recompFold ⟨[], [], m, []⟩ [line]) = _
  have : recompFold ⟨[], [], m, []⟩ [line] = stepLine ⟨[], [], m, []⟩ line := rfl
  rw [this, hstep, hflush]

/-- Witness for C10: an unknown id against a one-entry registry. -/
theorem c10_unknown_placeholder_ignored_witness :
    recomposeLinesList [("uuid-3".data, ⟨7, true⟩)] ["[IMAGE:unknown]".data]
      = ⟨[], [], [("uuid-3".data, ⟨7, true⟩)], []⟩ :=
  c10_unknown_placeholder_ignored [("uuid-3".data, ⟨7, true⟩)]
    "[IMAGE:unknown]".data "unknown".data (by decide) (by decide) (by decide)

/-- Claim C2: Oversized images degrade to the sentinel and are never
registered: every registered asset is within the per-image threshold, the
registry holds exactly one entry per within-threshold image (so no id is
issued for an oversized one), the output text carries one sentinel
placeholder per oversized image, and recomposition renders a sentinel
placeholder line as a plain-text paragraph (not an image) whenever the
registry does not contain the sentinel as a key. -/
theorem c2_oversized_image_sentinel (doc : WDoc) (m : List (List Char × ImgAsset)) :
    (∀ e ∈ (extractTextAndImages doc).imageMap, e.2.size ≤ MAX_IMAGE_SIZE) ∧
    (extractTextAndImages doc).imageMap.length = smallImageCount doc ∧
    tooBigCount (extractTextAndImages doc).lines = bigImageCount doc ∧
    ((∀ k ∈ m.map Prod.fst, k ≠ sentinelText) →
      recomposeLinesList m [renderLine [Seg.tooBig]]
        = ⟨[RBlock.textOnly ("[IMAGE: ".data ++ sentinelText ++ "]".data)], [], m, []⟩) := by
  refine ⟨?_, ?_, ?_, ?_⟩
  · exact extract_fold_sizes doc ⟨[], [], 0⟩ (by simp)
  · obtain ⟨-, h2⟩ := extract_fold_inv doc ⟨[], [], 0⟩ (by simp [phIds]) (by simp)
    have hlen : (extractTextAndImages doc).imageMap.length = (extractTextAndImages doc).nextId := by
      have := congrArg List.length h2
      simpa [extractTextAndImages] using this
    have hnext := extract_fold_next doc ⟨[], [], 0⟩
    rw [hlen]
    show (List.foldl paraStep ⟨[], [], 0⟩ doc).nextId = smallImageCount doc
    rw [hnext]
    simp
  · have := extract_fold_tooBig doc ⟨[], [], 0⟩
    show tooBigCount (List.foldl paraStep ⟨[], [], 0⟩ doc).lines = bigImageCount doc
    rw [this]
    simp [tooBigCount]
  · intro hk
    have hid : lineImageId (renderLine [Seg.tooBig]) = some (' ' :: sentinelText) := by decide
    have hb := lineImageId_some_nonblank hid
    have hflush : flushSt ⟨[], [], m, []⟩ = ⟨[], [], m, []⟩ := by
      rw [flushSt_eq]
      simp [flushAdd]
    have hps : pyStrip (' ' :: sentinelText) = sentinelText := by decide
    have hmem : lookupAsset m sentinelText = none :=
      lookupAsset_eq_none m sentinelText hk
    have hstep : stepLine ⟨[], [], m, []⟩ (renderLine [Seg.tooBig])
        = ⟨[RBlock.textOnly ("[IMAGE: ".data ++ sentinelText ++ "]".data)], [], m, []⟩ := by
      unfold stepLine
      rw [if_neg hb, hid]
      dsimp only
      rw [hflush]
      dsimp only
      rw [hps, hmem]
      dsimp only
      rw [if_pos (by decide : pyStrip sentinelText = sentinelText)]
      simp
    show flushSt (recompFold ⟨[], [], m, []⟩ [renderLine [Seg.tooBig]]) = _
    have hone : recompFold ⟨[], [], m, []⟩ [renderLine [Seg.tooBig]]
        = stepLine ⟨[], [], m, []⟩ (renderLine [Seg.tooBig]) := rfl
    rw [hone, hstep, flushSt_eq]
    simp [flushAdd]

/-- Witness for C2: a document with a single 11MB image and an empty
registry. -/
theorem c2_oversized_image_sentinel_witness :
    ((extractTextAndImages [[Run.imageRun ⟨11534336, true⟩]]).imageMap.length
      = smallImageCount [[Run.imageRun ⟨11534336, true⟩]] ∧
     tooBigCount (extractTextAndImages [[Run.imageRun ⟨11534336, true⟩]]).lines
      = bigImageCount [[Run.imageRun ⟨11534336, true⟩]]) ∧
    recomposeLinesList [] [renderLine [Seg.tooBig]]
      = ⟨[RBlock.textOnly ("[IMAGE: ".data ++ sentinelText ++ "]".data)], [], [], []⟩ :=
  ⟨⟨(c2_oversized_image_sentinel [[Run.imageRun ⟨11534336, true⟩]] []).2.1,
    (c2_oversized_image_sentinel [[Run.imageRun ⟨11534336, true⟩]] []).2.2.1⟩,
   (c2_oversized_image_sentinel [[Run.imageRun ⟨11534336, true⟩]] []).2.2.2 (by decide)⟩

/-! ## Image display scaling (`_add_image_to_doc`, lines 277–299)

Pixel dimensions are converted to inches at the assumed 96 DPI; if the
width exceeds 6.0in both dimensions are scaled so the width equals 6.0in;
then if the (possibly already rescaled) height exceeds 8.0in both are
scaled so the height equals 8.0in.  Python's float arithmetic is modelled
by exact rationals; the claim's 1% ratio tolerance absorbs float rounding,
and in the exact model the aspect ratio is preserved exactly. -/

def MAX_WIDTH_INCHES : ℚ := 6
def MAX_HEIGHT_INCHES : ℚ := 8

/-- The dimension computation of `_add_image_to_doc` on the pixel sizes
reported by PIL. -/
def scaleDims (wpx hpx : ℚ) : ℚ × ℚ :=
  let wi := wpx / 96
  let hi := hpx / 96
  let p1 :=
    if MAX_WIDTH_INCHES < wi then (MAX_WIDTH_INCHES, hi * (MAX_WIDTH_INCHES / wi))
    else (wi, hi)
  if MAX_HEIGHT_INCHES < p1.2 then (p1.1 * (MAX_HEIGHT_INCHES / p1.2), MAX_HEIGHT_INCHES)
  else p1

/-- Claim C8: For positive pixel dimensions, the computed display dimensions
are positive, the width is at most 6.0in and the height at most 8.0in, and
the width:height ratio equals the original W:H exactly (hence certainly
within the claimed 1% tolerance). -/
theorem c8_image_scaling_bounds (w h : ℚ) (hw : 0 < w) (hh : 0 < h) :
    0 < (scaleDims w h).1 ∧ 0 < (scaleDims w h).2 ∧
    (scaleDims w h).1 ≤ MAX_WIDTH_INCHES ∧ (scaleDims w h).2 ≤ MAX_HEIGHT_INCHES ∧
    (scaleDims w h).1 * h = (scaleDims w h).2 * w ∧
    (scaleDims w h).1 / (scaleDims w h).2 = w / h := by
  have hw96 : (0 : ℚ) < w / 96 := by positivity
  have hh96 : (0 : ℚ) < h / 96 := by positivity
  have hw' : w ≠ 0 := ne_of_gt hw
  have hh' : h ≠ 0 := ne_of_gt hh
  unfold scaleDims MAX_WIDTH_INCHES MAX_HEIGHT_INCHES
  dsimp only
  by_cases h1 : (6 : ℚ) < w / 96
  · rw [if_pos h1]
    dsimp only
    have e1 : h / 96 * ((6 : ℚ) / (w / 96)) = 6 * h / w := by
      field_simp
      ring
    rw [e1]
    by_cases h2 : (8 : ℚ) < 6 * h / w
    · rw [if_pos h2]
      dsimp only
      have e2 : (6 : ℚ) * (8 / (6 * h / w)) = 8 * w / h := by
        field_simp
        ring
      rw [e2]
      have hlt : 8 * w < 6 * h := by
        have := (lt_div_iff₀ hw).mp h2
        linarith
      refine ⟨by positivity, by norm_num, ?_, le_refl _, ?_, ?_⟩
      · rw [div_le_iff₀ hh]
        linarith
      · field_simp
      · rw [div_div, div_eq_div_iff (by positivity) hh']
        ring
    · rw [if_neg h2]
      dsimp only
      have hle : 6 * h / w ≤ 8 := le_of_not_lt h2
      refine ⟨by norm_num, by positivity, le_refl _, hle, ?_, ?_⟩
      · field_simp
      · rw [div_eq_div_iff (by positivity) hh']
        field_simp
  · rw [if_neg h1]
    dsimp only
    have hwle : w / 96 ≤ 6 := le_of_not_lt h1
    by_cases h2 : (8 : ℚ) < h / 96
    · rw [if_pos h2]
      dsimp only
      have e2 : w / 96 * ((8 : ℚ) / (h / 96)) = 8 * w / h := by
        field_simp
        ring
      rw [e2]
      refine ⟨by positivity, by norm_num, ?_, le_refl _, ?_, ?_⟩
      · rw [div_le_iff₀ hh]
        have h8 : (8 : ℚ) * 96 < h := by
          have := (lt_div_iff₀ (by norm_num : (0:ℚ) < 96)).mp h2
          linarith
        have hw6 : w ≤ 6 * 96 := by
          have := (div_le_iff₀ (by norm_num : (0:ℚ) < 96)).mp hwle
          linarith
        nlinarith
      · field_simp
      · rw [div_eq_div_iff (by positivity) hh']
        field_simp
        ring
    · rw [if_neg h2]
      dsimp only
      refine ⟨hw96, hh96, hwle, le_of_not_lt h2, ?_, ?_⟩
      · field_simp
        ring
      · rw [div_eq_div_iff (ne_of_gt hh96) hh']
        field_simp

/-- Witness for C8: a 960×1920 pixel image (10in × 20in at 96 DPI) scales
to 4in × 8in, preserving the 1:2 ratio within both caps. -/
theorem c8_image_scaling_bounds_witness :
    0 < (scaleDims 960 1920).1 ∧ 0 < (scaleDims 960 1920).2 ∧
    (scaleDims 960 1920).1 ≤ MAX_WIDTH_INCHES ∧ (scaleDims 960 1920).2 ≤ MAX_HEIGHT_INCHES ∧
    (scaleDims 960 1920).1 * 1920 = (scaleDims 960 1920).2 * 960 ∧
    (scaleDims 960 1920).1 / (scaleDims 960 1920).2 = 960 / 1920 :=
  c8_image_scaling_bounds 960 1920 (by norm_num) (by norm_num)

end DocImprover
